import Mathlib

/-!
# Verification of the voicetoshop widget-insertion pipeline

Shallow embedding of the core of the repository: the Decision Normalizer
(`normalizePlacementStrategy` in `llm.ts`), the Placement Engine
(`insertWidgetHtml`, `countWidgets`, the cleaning helpers in
`placement.ts`/`html.ts`), the batch orchestrator (`main`/`processPost`
in the unnamed run script), and the State Store (`loadState`/`saveState`
in `state.ts`).

Strings are modelled as `List Char` (`Cs`).  JavaScript regular-expression
replacement with an empty replacement and the `g` flag is modelled by a
single left-to-right scan (`wpCleanF`, `cf7CleanF`), matching the
non-backtracking behaviour of the concrete patterns involved.  The
`cheerio` DOM library (htmlparser2 fragment mode, `decodeEntities: false`,
as used by the source) is modelled by a small HTML node type with a
fragment parser and serializer; tag names are lowercased, close tags that
do not match the innermost open element are ignored, and unclosed
elements are closed at end of input.
-/

set_option maxRecDepth 100000

/-- Character strings, as used throughout the embedding. -/
abbrev Cs := List Char

/-- `startsWith s pat` : `pat` is a prefix of `s` (JS `String.startsWith`). -/
def startsWith : Cs → Cs → Bool
  | _, [] => true
  | [], _ :: _ => false
  | c :: cs, p :: ps => c = p && startsWith cs ps

/-- `occursIn pat s` : `pat` occurs as a substring of `s` (JS `String.includes`). -/
def occursIn (pat : Cs) : Cs → Bool
  | [] => pat.isEmpty
  | c :: cs => startsWith (c :: cs) pat || occursIn pat cs

/-- Lower-casing of one character as JS `toLowerCase` acts on the alphabets
this program uses: ASCII `A`–`Z` and Cyrillic `А`–`Я`, `Ё`. -/
def jsToLowerChar (c : Char) : Char :=
  if 65 ≤ c.toNat ∧ c.toNat ≤ 90 then Char.ofNat (c.toNat + 32)
  else if 0x410 ≤ c.toNat ∧ c.toNat ≤ 0x42F then Char.ofNat (c.toNat + 32)
  else if c.toNat = 0x401 then Char.ofNat 0x451
  else c

/-- JS `String.toLowerCase` on the alphabets this program uses. -/
def jsToLower (s : Cs) : Cs := s.map jsToLowerChar

/-- The placement-strategy type `'top' | 'bottom'` of `llm.ts`. -/
inductive Placement
  | top
  | bottom
deriving DecidableEq, Repr

/-- `normalizePlacementStrategy` from `llm.ts`:
`val = (raw || '').toLowerCase()`; `top` when `val` contains `"top"` or
`"нач"`, `bottom` when it contains `"bottom"`, `"end"` or `"кон"`,
otherwise a thrown `Error` (modelled as `Except.error` with the thrown
message). -/
def normalizePlacementStrategy (raw : String) : Except String Placement :=
  let val := jsToLower raw.toList
  if occursIn "top".toList val || occursIn "нач".toList val then .ok .top
  else if occursIn "bottom".toList val || occursIn "end".toList val
      || occursIn "кон".toList val then .ok .bottom
  else .error ("placement_strategy должен быть top или bottom, а не: " ++ raw)

/-- JS `\s` on the characters this program manipulates (ASCII whitespace). -/
def isWsChar (c : Char) : Bool :=
  c = ' ' || c = '\t' || c = '\n' || c = '\r' || c = '\x0b' || c = '\x0c'

/-- Consume the exact literal `lit` from the front of `s`. -/
def dropLit : Cs → Cs → Option Cs
  | [], s => some s
  | _ :: _, [] => none
  | l :: ls, c :: cs => if c = l then dropLit ls cs else none

/-- Consume the literal `lit` (given lowercase) case-insensitively. -/
def dropLitCI : Cs → Cs → Option Cs
  | [], s => some s
  | _ :: _, [] => none
  | l :: ls, c :: cs => if jsToLowerChar c = l then dropLitCI ls cs else none

/-- Match one occurrence of the `wp:post-content` end-marker pattern at the
head of `s`, returning the remainder. -/
def matchWpMarker (s : Cs) : Option Cs :=
  (dropLit "<!--".toList s).bind fun s1 =>
    (dropLitCI "/wp:post-content".toList (s1.dropWhile isWsChar)).bind fun s2 =>
      dropLit "-->".toList (s2.dropWhile isWsChar)

/-- Fuelled scan removing every `wp:post-content` end-marker, left to right. -/
def wpCleanF : Nat → Cs → Cs
  | 0, s => s
  | _ + 1, [] => []
  | fuel + 1, c :: cs =>
    match matchWpMarker (c :: cs) with
    | some r => wpCleanF fuel r
    | none => c :: wpCleanF fuel cs

/-- `cleanWpPostContentMarkers` from `placement.ts`/`html.ts`: global removal
of `wp:post-content` end-markers. -/
def cleanWpPostContentMarkers (s : Cs) : Cs := wpCleanF s.length s

/-- No suffix of `s` begins a `wp:post-content` end-marker (the pattern does
not occur in `s`). -/
def wpFreeF : Nat → Cs → Bool
  | 0, _ => true
  | _ + 1, [] => true
  | fuel + 1, c :: cs => (matchWpMarker (c :: cs)).isNone && wpFreeF fuel cs

/-- The `wp:post-content` end-marker pattern does not occur in `s`. -/
def wpFree (s : Cs) : Bool := wpFreeF s.length s

/-- Match one `[contact-form-7` … `]` shortcode tail: non-`]` characters,
then `]`. -/
def cf7Tail : Cs → Option Cs
  | [] => none
  | c :: cs => if c = ']' then some cs else cf7Tail cs

/-- Match one contact-form-7 shortcode at the head of `s`. -/
def matchCf7 (s : Cs) : Option Cs :=
  (dropLitCI "[contact-form-7".toList s).bind cf7Tail

/-- Fuelled scan removing every contact-form-7 shortcode, left to right. -/
def cf7CleanF : Nat → Cs → Cs
  | 0, s => s
  | _ + 1, [] => []
  | fuel + 1, c :: cs =>
    match matchCf7 (c :: cs) with
    | some r => cf7CleanF fuel r
    | none => c :: cf7CleanF fuel cs

/-- The string half of `removeContactFormShortcodesAndForms`: global removal
of `[contact-form-7` … `]` shortcodes. -/
def stripCf7Shortcodes (s : Cs) : Cs := cf7CleanF s.length s

/-- The canonical widget embed signature counted by the Idempotency Guard. -/
def widgetSig : Cs := "shkolamasterov.online/pl/lite/widget".toList

/-- Count non-overlapping occurrences of `pat`, scanning left to right. -/
def countOccF : Nat → Cs → Cs → Nat
  | 0, _, _ => 0
  | _ + 1, _, [] => 0
  | fuel + 1, pat, c :: cs =>
    if startsWith (c :: cs) pat then
      1 + countOccF fuel pat ((c :: cs).drop pat.length)
    else countOccF fuel pat cs

/-- Count non-overlapping occurrences of `pat` in `s`. -/
def countOcc (pat s : Cs) : Nat := countOccF s.length pat s

/-- `countWidgets` from `html.ts`: the number of case-insensitive
occurrences of the canonical embed signature. -/
def countWidgets (html : Cs) : Nat := countOcc widgetSig (jsToLower html)

/-! ## Theory of the `wp:post-content` marker removal -/

/-- The canonical `wp:post-content` end-marker. -/
def wpMarkerCanon : Cs := "<!-- /wp:post-content -->".toList

/-- All characters of `s` are whitespace. -/
def allWs (s : Cs) : Bool := s.all isWsChar

/-- No character of `s` is `<`. -/
def noLt (s : Cs) : Bool := s.all (· ≠ '<')

mutual
/-- A DOM node: element (with raw attribute text), text, or comment. -/
inductive HNode where
  | elem (tag : Cs) (attrs : Cs) (children : HForest)
  | text (s : Cs)
  | comment (s : Cs)

/-- A list of sibling DOM nodes. -/
inductive HForest where
  | nil
  | cons (n : HNode) (rest : HForest)
end

/-- Append two sibling lists. -/
def happend : HForest → HForest → HForest
  | .nil, g => g
  | .cons n rest, g => .cons n (happend rest g)

/-- The HTML void elements (no children, no close tag). -/
def isVoidTag (t : Cs) : Bool :=
  t = "area".toList || t = "base".toList || t = "br".toList || t = "col".toList
    || t = "embed".toList || t = "hr".toList || t = "img".toList
    || t = "input".toList || t = "link".toList || t = "meta".toList
    || t = "param".toList || t = "source".toList || t = "track".toList
    || t = "wbr".toList

def isAsciiLetter (c : Char) : Bool :=
  (97 ≤ c.toNat && c.toNat ≤ 122) || (65 ≤ c.toNat && c.toNat ≤ 90)

/-- Read a tag name: characters up to whitespace, `/` or `>`, lowercased. -/
def readTagName (s : Cs) : Cs × Cs :=
  let name := s.takeWhile fun c => !(isWsChar c || c = '/' || c = '>')
  (name.map jsToLowerChar, s.dropWhile fun c => !(isWsChar c || c = '/' || c = '>'))

/-- Read a quoted attribute-value section, up to and including the closing
quote. -/
def readQuoted (q : Char) : Cs → Cs × Cs
  | [] => ([], [])
  | c :: cs => if c = q then ([c], cs) else
    let (inner, rest) := readQuoted q cs
    (c :: inner, rest)

/-- Read raw attribute text up to the closing `>` (respecting quotes),
consuming the `>`. -/
def readAttrsText : Nat → Cs → Cs × Cs
  | 0, s => ([], s)
  | _ + 1, [] => ([], [])
  | fuel + 1, c :: cs =>
    if c = '>' then ([], cs)
    else if c = '"' || c = '\'' then
      let (q, r) := readQuoted c cs
      let (a, rest) := readAttrsText fuel r
      (c :: (q ++ a), rest)
    else
      let (a, rest) := readAttrsText fuel cs
      (c :: a, rest)

/-- Read comment content up to `-->` (consuming it); at end of input the
whole remainder is the content. -/
def readCommentBody : Cs → Cs × Cs
  | [] => ([], [])
  | c :: cs =>
    if startsWith (c :: cs) "-->".toList then ([], cs.drop 2)
    else
      let (b, rest) := readCommentBody cs
      (c :: b, rest)

/-- The htmlparser2-style fragment parse: returns the nodes up to (and
consuming) a close tag matching `stop`, or to end of input. -/
def parseNodesF : Nat → Cs → Option Cs → HForest × Cs
  | 0, s, _ => (.nil, s)
  | _ + 1, [], _ => (.nil, [])
  | fuel + 1, c :: cs, stop =>
    if c = '<' then
      match cs with
      | '/' :: cs2 =>
        if isAsciiLetter (cs2.headD ' ') then
          let (name, r1) := readTagName cs2
          let r2 := (r1.dropWhile (· ≠ '>')).drop 1
          if stop = some name then (.nil, r2)
          else parseNodesF fuel r2 stop
        else
          let txt := cs.takeWhile (· ≠ '<')
          let (sib, rest) := parseNodesF fuel (cs.dropWhile (· ≠ '<')) stop
          (.cons (.text (c :: txt)) sib, rest)
      | '!' :: '-' :: '-' :: cs2 =>
        let (body, r1) := readCommentBody cs2
        let (sib, rest) := parseNodesF fuel r1 stop
        (.cons (.comment body) sib, rest)
      | _ =>
        if isAsciiLetter (cs.headD ' ') then
          let (name, r1) := readTagName cs
          let (attrs, r2) := readAttrsText r1.length r1
          if isVoidTag name then
            let (sib, rest) := parseNodesF fuel r2 stop
            (.cons (.elem name attrs .nil) sib, rest)
          else
            let (children, r3) := parseNodesF fuel r2 (some name)
            let (sib, rest) := parseNodesF fuel r3 stop
            (.cons (.elem name attrs children) sib, rest)
        else
          let txt := cs.takeWhile (· ≠ '<')
          let (sib, rest) := parseNodesF fuel (cs.dropWhile (· ≠ '<')) stop
          (.cons (.text (c :: txt)) sib, rest)
    else
      let txt := (c :: cs).takeWhile (· ≠ '<')
      let (sib, rest) := parseNodesF fuel ((c :: cs).dropWhile (· ≠ '<')) stop
      (.cons (.text txt) sib, rest)

/-- Parse an HTML fragment into a node forest. -/
def parseHtml (s : Cs) : HForest := (parseNodesF (s.length + 1) s none).1

mutual
/-- Serialize one node (dom-serializer style: non-void elements always get
a close tag, comments and text render verbatim). -/
def renderN : HNode → Cs
  | .elem tag attrs children =>
    if isVoidTag tag then '<' :: (tag ++ attrs ++ ['>'])
    else '<' :: (tag ++ attrs ++ ['>']) ++ renderF children
      ++ ('<' :: '/' :: (tag ++ ['>']))
  | .text s => s
  | .comment s => "<!--".toList ++ s ++ "-->".toList

/-- Serialize a forest. -/
def renderF : HForest → Cs
  | .nil => []
  | .cons n rest => renderN n ++ renderF rest
end

mutual
/-- Does a node's subtree contain an element with tag `t`? -/
def hasTagN (t : Cs) : HNode → Bool
  | .elem tag _ children => tag = t || hasTagF t children
  | _ => false

/-- Does the forest contain an element with tag `t`? -/
def hasTagF (t : Cs) : HForest → Bool
  | .nil => false
  | .cons n rest => hasTagN t n || hasTagF t rest
end

mutual
/-- Is there a `p` element with a `t`-ancestor?  `insideT` records whether
an enclosing element already matched `t`. -/
def hasPUnderN (t : Cs) (insideT : Bool) : HNode → Bool
  | .elem tag _ children =>
    (insideT && tag = "p".toList) || hasPUnderF t (insideT || tag = t) children
  | _ => false

def hasPUnderF (t : Cs) (insideT : Bool) : HForest → Bool
  | .nil => false
  | .cons n rest => hasPUnderN t insideT n || hasPUnderF t insideT rest
end

mutual
/-- Insert `ins` right after the first (document-order) `p` element having a
`t`-ancestor; the `Bool` reports whether the target was found.  For one
node, the replacement forest for that node is returned. -/
def afterPN (t : Cs) (ins : HForest) (insideT : Bool) : HNode → HForest × Bool
  | .elem tag attrs children =>
    if insideT && tag = "p".toList then
      (.cons (.elem tag attrs children) ins, true)
    else
      match afterPF t ins (insideT || tag = t) children with
      | (children', true) => (.cons (.elem tag attrs children') .nil, true)
      | (_, false) => (.cons (.elem tag attrs children) .nil, false)
  | n => (.cons n .nil, false)

def afterPF (t : Cs) (ins : HForest) (insideT : Bool) : HForest → HForest × Bool
  | .nil => (.nil, false)
  | .cons n rest =>
    match afterPN t ins insideT n with
    | (rn, true) => (happend rn rest, true)
    | (rn, false) =>
      let (rest', found) := afterPF t ins insideT rest
      (happend rn rest', found)
end

mutual
/-- Prepend `ins` to the children of every element with tag `t`
(the matched set is the original document's elements, as in cheerio). -/
def prependAllN (t : Cs) (ins : HForest) : HNode → HNode
  | .elem tag attrs children =>
    let children' := prependAllF t ins children
    if tag = t then .elem tag attrs (happend ins children')
    else .elem tag attrs children'
  | n => n

def prependAllF (t : Cs) (ins : HForest) : HForest → HForest
  | .nil => .nil
  | .cons n rest => .cons (prependAllN t ins n) (prependAllF t ins rest)
end

mutual
/-- Append `ins` to the children of every element with tag `t`. -/
def appendAllN (t : Cs) (ins : HForest) : HNode → HNode
  | .elem tag attrs children =>
    let children' := appendAllF t ins children
    if tag = t then .elem tag attrs (happend children' ins)
    else .elem tag attrs children'
  | n => n

def appendAllF (t : Cs) (ins : HForest) : HForest → HForest
  | .nil => .nil
  | .cons n rest => .cons (appendAllN t ins n) (appendAllF t ins rest)
end

mutual
/-- The children of the first (document-order) element with tag `t`. -/
def innerFirstN (t : Cs) : HNode → Option HForest
  | .elem tag _ children =>
    if tag = t then some children else innerFirstF t children
  | _ => none

def innerFirstF (t : Cs) : HForest → Option HForest
  | .nil => none
  | .cons n rest =>
    match innerFirstN t n with
    | some f => some f
    | none => innerFirstF t rest
end

/-- Split raw attribute text into `(name, value)` pairs: names up to
whitespace, `=`, or `/`; values quoted or bare. -/
def parseAttrsText : Nat → Cs → List (Cs × Cs)
  | 0, _ => []
  | _ + 1, [] => []
  | fuel + 1, c :: cs =>
    if isWsChar c || c = '/' then parseAttrsText fuel cs
    else
      let name := (c :: cs).takeWhile fun d => !(isWsChar d || d = '=' || d = '/')
      let r1 := (c :: cs).dropWhile fun d => !(isWsChar d || d = '=' || d = '/')
      match r1 with
      | '=' :: r2 =>
        match r2 with
        | '"' :: r3 =>
          let v := r3.takeWhile (· ≠ '"')
          (name, v) :: parseAttrsText fuel ((r3.dropWhile (· ≠ '"')).drop 1)
        | '\'' :: r3 =>
          let v := r3.takeWhile (· ≠ '\'')
          (name, v) :: parseAttrsText fuel ((r3.dropWhile (· ≠ '\'')).drop 1)
        | _ =>
          let v := r2.takeWhile fun d => !(isWsChar d)
          (name, v) :: parseAttrsText fuel (r2.dropWhile fun d => !(isWsChar d))
      | _ => (name, []) :: parseAttrsText fuel r1

/-- Split a class-attribute value into whitespace-separated tokens. -/
def classTokens : Nat → Cs → List Cs
  | 0, _ => []
  | _ + 1, [] => []
  | fuel + 1, c :: cs =>
    if isWsChar c then classTokens fuel cs
    else
      ((c :: cs).takeWhile fun d => !(isWsChar d))
        :: classTokens fuel ((c :: cs).dropWhile fun d => !(isWsChar d))

/-- Does the raw attribute text carry class token `cls`?  (The `.wpcf7`
selector match.) -/
def attrsHaveClass (attrs cls : Cs) : Bool :=
  match (parseAttrsText attrs.length attrs).lookup "class".toList with
  | some v => (classTokens v.length v).contains cls
  | none => false

mutual
/-- Remove every element whose class tokens include `wpcf7`
(`$('.wpcf7').remove()`). -/
def removeWpcf7N : HNode → Option HNode
  | .elem tag attrs children =>
    if attrsHaveClass attrs "wpcf7".toList then none
    else some (.elem tag attrs (removeWpcf7F children))
  | n => some n

def removeWpcf7F : HForest → HForest
  | .nil => .nil
  | .cons n rest =>
    match removeWpcf7N n with
    | some n' => .cons n' (removeWpcf7F rest)
    | none => removeWpcf7F rest
end

/-- `removeContactFormShortcodesAndForms` from `html.ts`: strip
`[contact-form-7 …]` shortcodes from the raw string, then load the result
and remove every `.wpcf7` element, re-serializing the root. -/
def removeContactFormShortcodesAndForms (html : Cs) : Cs :=
  renderF (removeWpcf7F (parseHtml (stripCf7Shortcodes html)))

/-- The `container` component of a `placement` report. -/
inductive Container
  | article
  | body
  | root
deriving DecidableEq, Repr

/-- The `method` component of a `placement` report. -/
inductive InsMethod
  | prepend
  | append
  | afterFirstP
deriving DecidableEq, Repr

/-- The `placement` object of an `InsertResult`. -/
structure PlacementReport where
  container : Container
  position : Placement
  method : InsMethod
deriving DecidableEq, Repr

/-- The return value of `insertWidgetHtml` (`placement` is nullable in the
source's type but is set on every code path). -/
structure InsertResult where
  html : Cs
  placement : Option PlacementReport

/-- The insertion block built by `insertWidgetHtml` before its
`wp:post-content` re-clean: open marker, lead paragraph, widget HTML,
close marker. -/
def buildBlockRaw (widgetId ctaText widgetHtml : Cs) : Cs :=
  "<!-- ai-cta:start id=".toList ++ widgetId
    ++ " -->\n<p class=\"ai-cta-text\">".toList ++ ctaText
    ++ "</p>\n".toList ++ widgetHtml ++ "\n<!-- ai-cta:end -->".toList

/-- The insertion block as the code builds it: the raw block with
`wp:post-content` end-markers removed (and nothing else). -/
def buildBlock (widgetId ctaText widgetHtml : Cs) : Cs :=
  cleanWpPostContentMarkers (buildBlockRaw widgetId ctaText widgetHtml)

/-- `insertWidgetHtml` from `placement.ts`/`html.ts`. -/
def insertWidgetHtml (html widgetId widgetHtml ctaText : Cs)
    (position : Placement) : InsertResult :=
  let h1 := removeContactFormShortcodesAndForms html
  let h2 := cleanWpPostContentMarkers h1
  let doc := parseHtml h2
  let block := buildBlock widgetId ctaText widgetHtml
  let artT := "article".toList
  let bodyT := "body".toList
  let step :=
    match position with
    | .top =>
      cond (hasTagF artT doc && hasPUnderF artT false doc)
        ((afterPF artT (parseHtml ('\n' :: block ++ ['\n'])) false doc).1,
          Container.article, InsMethod.afterFirstP)
        (cond (hasTagF bodyT doc && hasPUnderF bodyT false doc)
          ((afterPF bodyT (parseHtml ('\n' :: block ++ ['\n'])) false doc).1,
            Container.body, InsMethod.afterFirstP)
          (cond (hasTagF artT doc)
            (prependAllF artT (parseHtml (block ++ ['\n'])) doc,
              Container.article, InsMethod.prepend)
            (cond (hasTagF bodyT doc)
              (prependAllF bodyT (parseHtml (block ++ ['\n'])) doc,
                Container.body, InsMethod.prepend)
              (happend (parseHtml (block ++ ['\n'])) doc,
                Container.root, InsMethod.prepend))))
    | .bottom =>
      cond (hasTagF artT doc)
        (appendAllF artT (parseHtml ('\n' :: block)) doc,
          Container.article, InsMethod.append)
        (cond (hasTagF bodyT doc)
          (appendAllF bodyT (parseHtml ('\n' :: block)) doc,
            Container.body, InsMethod.append)
          (happend doc (parseHtml ('\n' :: block)),
            Container.root, InsMethod.append))
  let doc' := step.1
  let resultHtml :=
    cond (hasTagF artT doc')
      (match innerFirstF artT doc' with
        | some f => renderF f
        | none => [])
      (cond (hasTagF bodyT doc')
        (match innerFirstF bodyT doc' with
          | some f => renderF f
          | none => [])
        (renderF doc'))
  { html := cleanWpPostContentMarkers resultHtml,
    placement := some ⟨step.2.1, position, step.2.2⟩ }

/-- The single-article gate of `runOne.ts`: insertion is attempted only when
`countWidgets` of the current body is below the cap of 2. -/
def gatedInsertStep (widgetId widgetHtml ctaText : Cs) (position : Placement)
    (html : Cs) : Cs :=
  if 2 ≤ countWidgets html then html
  else (insertWidgetHtml html widgetId widgetHtml ctaText position).html

/-- `N` gated runs of the Placement Engine with the same widget and
position. -/
def gatedInsertIter (widgetId widgetHtml ctaText : Cs) (position : Placement) :
    Nat → Cs → Cs
  | 0, h => h
  | n + 1, h =>
    gatedInsertStep widgetId widgetHtml ctaText position
      (gatedInsertIter widgetId widgetHtml ctaText position n h)

/-! ## The per-article step and the batch orchestrator

From the unnamed run script: `processPost` fetches the article, asks the
model for a widget choice, inserts, and compares `articleText === newHtml`
— where `newHtml` is the whole `InsertResult` *object*, so the JS strict
comparison of a string against an object is always `false`.  The
orchestrator `main` pages through posts, filters against the `ProcessedSet`,
chunks into batches of `par`, runs each batch with per-item catch, adds
only successful ids, saves state once per page and once at the end, and
stops at the 600-total cap, an empty page, or a fully-filtered page.
External effects (fetch, model, task success) are oracle parameters. -/

/-- The model's widget choice (`WidgetChoiceResult` in `llm.ts`). -/
structure WidgetChoice where
  best_widget_id : Cs
  placement_strategy : Placement
  cta_text : Cs

/-- The placement strategy as the string the run script passes for the
`ctaText` parameter (its 4-argument call to `insertWidgetHtml`). -/
def placementText : Placement → Cs
  | .top => "top".toList
  | .bottom => "bottom".toList

/-- JS strict equality between a primitive string and an object: always
`false` (no coercion happens for `===`). -/
def jsStrictEqStrObj (_s : Cs) (_o : InsertResult) : Bool := false

/-- What `processPost` reports for one article. -/
structure ProcessOutcome where
  postId : Nat
  changed : Bool

/-- The value handed to `updatePostContent` as the new content. -/
inductive UpdateContent where
  | str (s : Cs)
  | obj (r : InsertResult)

/-- `processPost` from the run script: note the 4-argument
`insertWidgetHtml` call (the placement strategy lands in the `ctaText`
slot and the position defaults to `top`) and the `articleText === newHtml`
comparison against the whole result object.  Returns the outcome and the
content update performed (if any). -/
def processPost (fetchBody : Nat → Cs) (llm : Cs → WidgetChoice)
    (embedOf : Cs → Cs) (dryRun : Bool) (postId : Nat) :
    ProcessOutcome × Option UpdateContent :=
  let articleText := fetchBody postId
  let llmResult := llm articleText
  let embed := embedOf llmResult.best_widget_id
  let newHtml := insertWidgetHtml articleText llmResult.best_widget_id embed
    (placementText llmResult.placement_strategy) Placement.top
  if jsStrictEqStrObj articleText newHtml then
    ({ postId := postId, changed := false }, none)
  else
    ({ postId := postId, changed := true },
      if dryRun then none else some (.obj newHtml))

/-- JS `Set.add` on an insertion-ordered set of ids. -/
def jsSetAdd (s : List Nat) (x : Nat) : List Nat :=
  if x ∈ s then s else s ++ [x]

/-- An event of an orchestrator run: a batch dispatch or a `saveState`. -/
inductive RunEvent where
  | batch (ids : List Nat)
  | save (processed : List Nat)
deriving DecidableEq, Repr

/-- One concurrency batch: every item runs (each failure caught per item);
ids whose task succeeded are added to the set. -/
def runBatch (success : Nat → Bool) (processed : List Nat) (b : List Nat) :
    List Nat :=
  b.foldl (fun acc pid => if success pid then jsSetAdd acc pid else acc) processed

/-- The orchestrator's in-flight state. -/
structure RunAcc where
  processed : List Nat
  total : Nat
  trace : List RunEvent
deriving Repr

/-- Dispatch the page's batches in order, stopping when the 600-total cap
is reached. -/
def runBatches (success : Nat → Bool) : List (List Nat) → RunAcc → RunAcc
  | [], acc => acc
  | b :: bs, acc =>
    let processed' := runBatch success acc.processed b
    let total' := acc.total + b.length
    if 600 ≤ total' then
      { processed := processed', total := total',
        trace := acc.trace ++ [RunEvent.batch b] }
    else
      runBatches success bs
        { processed := processed', total := total',
          trace := acc.trace ++ [RunEvent.batch b] }

/-- Split into batches of `par` (the `for (i … i += par) slice` loop). -/
def chunkF : Nat → Nat → List Nat → List (List Nat)
  | 0, _, _ => []
  | _ + 1, _, [] => []
  | fuel + 1, n, x :: xs => ((x :: xs).take n) :: chunkF fuel n ((x :: xs).drop n)

/-- Batches of size `par`. -/
def chunk (n : Nat) (l : List Nat) : List (List Nat) := chunkF l.length n l

/-- The orchestrator page loop: guard (`stop`/600), fetch, filter against
the processed set, slice to `limit`, dispatch batches, `saveState` after
the page, recurse; a final `saveState` after the loop. -/
def runPages (success : Nat → Bool) (limit par : Nat) :
    List (List Nat) → List Nat → Nat → List RunEvent → List Nat × List RunEvent
  | [], processed, _, trace => (processed, trace ++ [RunEvent.save processed])
  | posts :: rest, processed, total, trace =>
    if 600 ≤ total then (processed, trace ++ [RunEvent.save processed])
    else if posts.isEmpty then (processed, trace ++ [RunEvent.save processed])
    else
      let toProcess := (posts.filter (fun pid => !processed.contains pid)).take limit
      if toProcess.isEmpty then (processed, trace ++ [RunEvent.save processed])
      else
        let acc := runBatches success (chunk par toProcess)
          ⟨processed, total, trace⟩
        runPages success limit par rest acc.processed acc.total
          (acc.trace ++ [RunEvent.save acc.processed])

/-- One orchestrator run over the given pages, starting from the loaded
`ProcessedSet`.  Returns the final processed set and the event trace. -/
def orchestratorRun (success : Nat → Bool) (limit par : Nat)
    (pages : List (List Nat)) (initial : List Nat) : List Nat × List RunEvent :=
  runPages success limit par pages initial 0 []

/-- All ids dispatched in batch events of a trace. -/
def dispatchedIds (trace : List RunEvent) : List Nat :=
  trace.foldr (fun e acc => match e with | .batch b => b ++ acc | _ => acc) []

mutual
/-- A JSON value. -/
inductive Json where
  | null
  | bool (b : Bool)
  | num (i : Int)
  | str (s : Cs)
  | arr (items : JArr)
  | obj (fields : JObj)

/-- A JSON array's items. -/
inductive JArr where
  | nil
  | cons (v : Json) (tl : JArr)

/-- A JSON object's fields, in order. -/
inductive JObj where
  | nil
  | cons (k : Cs) (v : Json) (tl : JObj)
end

/-- `\x7b` as a character value. -/
def lbrace : Char := Char.ofNat 123

/-- `\x7d` as a character value. -/
def rbrace : Char := Char.ofNat 125

/-- The two-space indentation at depth `d`. -/
def jind (d : Nat) : Cs := List.replicate (2 * d) ' '

def hexDigit (n : Nat) : Char :=
  if n < 10 then Char.ofNat (48 + n) else Char.ofNat (97 + n - 10)

/-- JSON string escaping of one character, as `JSON.stringify` performs it. -/
def escChar (c : Char) : Cs :=
  if c = '"' then ['\\', '"']
  else if c = '\\' then ['\\', '\\']
  else if c = '\x08' then ['\\', 'b']
  else if c = '\t' then ['\\', 't']
  else if c = '\n' then ['\\', 'n']
  else if c = '\x0c' then ['\\', 'f']
  else if c = '\r' then ['\\', 'r']
  else if c.toNat < 32 then
    ['\\', 'u', '0', '0', hexDigit (c.toNat / 16), hexDigit (c.toNat % 16)]
  else [c]

/-- The escaped body of a JSON string literal. -/
def escBody (s : Cs) : Cs := s.foldr (fun c acc => escChar c ++ acc) []

/-- A JSON string literal. -/
def escStr (s : Cs) : Cs := '"' :: escBody s ++ ['"']

def digitChar (n : Nat) : Char := Char.ofNat (48 + n)

def natDigitsF : Nat → Nat → Cs
  | 0, _ => []
  | fuel + 1, n =>
    if n < 10 then [digitChar n]
    else natDigitsF fuel (n / 10) ++ [digitChar (n % 10)]

/-- The decimal digits of a natural number. -/
def natDigits (n : Nat) : Cs := natDigitsF (n + 1) n

/-- The JSON rendering of an integer. -/
def intChars (i : Int) : Cs :=
  if i < 0 then '-' :: natDigits (-i).toNat else natDigits i.toNat

mutual
/-- `JSON.stringify(v, null, 2)` at depth `d`. -/
def jstrV : Nat → Json → Cs
  | _, .null => "null".toList
  | _, .bool true => "true".toList
  | _, .bool false => "false".toList
  | _, .num i => intChars i
  | _, .str s => escStr s
  | _, .arr .nil => "[]".toList
  | d, .arr (.cons v tl) =>
    '[' :: '\n' :: (jstrItems (d + 1) (.cons v tl) ++ ('\n' :: jind d ++ [']']))
  | _, .obj .nil => [lbrace, rbrace]
  | d, .obj (.cons k v tl) =>
    lbrace :: '\n' :: (jstrFields (d + 1) (.cons k v tl) ++ ('\n' :: jind d ++ [rbrace]))

/-- The pretty-printed items of an array, at item depth `d` (first item
without a separator). -/
def jstrItems : Nat → JArr → Cs
  | _, .nil => []
  | d, .cons v tl => jind d ++ jstrV d v ++ jstrItemsRest d tl

/-- Further array items, each preceded by `,\n`. -/
def jstrItemsRest : Nat → JArr → Cs
  | _, .nil => []
  | d, .cons v tl => ',' :: '\n' :: (jind d ++ jstrV d v ++ jstrItemsRest d tl)

/-- The pretty-printed fields of an object, at field depth `d`. -/
def jstrFields : Nat → JObj → Cs
  | _, .nil => []
  | d, .cons k v tl =>
    jind d ++ escStr k ++ (':' :: ' ' :: jstrV d v) ++ jstrFieldsRest d tl

/-- Further object fields, each preceded by `,\n`. -/
def jstrFieldsRest : Nat → JObj → Cs
  | _, .nil => []
  | d, .cons k v tl =>
    ',' :: '\n' :: (jind d ++ escStr k ++ (':' :: ' ' :: jstrV d v)
      ++ jstrFieldsRest d tl)
end

/-- `JSON.stringify(v, null, 2)`. -/
def jsonStringify2 (v : Json) : Cs := jstrV 0 v

def isDigitChar (c : Char) : Bool := 48 ≤ c.toNat && c.toNat ≤ 57

/-- Skip JSON inter-token whitespace. -/
def skipWsJ (s : Cs) : Cs := s.dropWhile isWsChar

def hexVal (c : Char) : Option Nat :=
  if 48 ≤ c.toNat && c.toNat ≤ 57 then some (c.toNat - 48)
  else if 97 ≤ c.toNat && c.toNat ≤ 102 then some (c.toNat - 87)
  else if 65 ≤ c.toNat && c.toNat ≤ 70 then some (c.toNat - 55)
  else none

def unescChar (c : Char) : Option Char :=
  if c = '"' then some '"'
  else if c = '\\' then some '\\'
  else if c = '/' then some '/'
  else if c = 'b' then some '\x08'
  else if c = 't' then some '\t'
  else if c = 'n' then some '\n'
  else if c = 'f' then some '\x0c'
  else if c = 'r' then some '\r'
  else none

/-- Read a JSON string body up to the closing quote, un-escaping. -/
def parseStrBody : Nat → Cs → Option (Cs × Cs)
  | 0, _ => none
  | _ + 1, [] => none
  | fuel + 1, c :: cs =>
    if c = '"' then some ([], cs)
    else if c = '\\' then
      match cs with
      | 'u' :: h1 :: h2 :: h3 :: h4 :: r =>
        (hexVal h1).bind fun a =>
          (hexVal h2).bind fun b =>
            (hexVal h3).bind fun e =>
              (hexVal h4).bind fun f =>
                (parseStrBody fuel r).map fun p =>
                  (Char.ofNat (((a * 16 + b) * 16 + e) * 16 + f) :: p.1, p.2)
      | e :: r =>
        (unescChar e).bind fun ch =>
          (parseStrBody fuel r).map fun p => (ch :: p.1, p.2)
      | [] => none
    else (parseStrBody fuel cs).map fun p => (c :: p.1, p.2)

def digitsVal (ds : Cs) : Nat := ds.foldl (fun acc c => acc * 10 + (c.toNat - 48)) 0

/-- Read a JSON integer. -/
def parseNum (s : Cs) : Option (Int × Cs) :=
  match s with
  | [] => none
  | c :: cs =>
    if c = '-' then
      let ds := cs.takeWhile isDigitChar
      if ds.isEmpty then none
      else some (-(digitsVal ds : Int), cs.dropWhile isDigitChar)
    else
      let ds := (c :: cs).takeWhile isDigitChar
      if ds.isEmpty then none
      else some ((digitsVal ds : Int), (c :: cs).dropWhile isDigitChar)

mutual
/-- Recursive-descent JSON value reader. -/
def parseVal : Nat → Cs → Option (Json × Cs)
  | 0, _ => none
  | fuel + 1, s =>
    match skipWsJ s with
    | [] => none
    | c :: cs =>
      if c = '"' then (parseStrBody cs.length cs).map fun p => (.str p.1, p.2)
      else if c = '[' then (parseArrList fuel cs).map fun p => (.arr p.1, p.2)
      else if c = lbrace then (parseObjList fuel cs).map fun p => (.obj p.1, p.2)
      else if c = 'n' then (dropLit "ull".toList cs).map fun r => (.null, r)
      else if c = 't' then (dropLit "rue".toList cs).map fun r => (.bool true, r)
      else if c = 'f' then (dropLit "alse".toList cs).map fun r => (.bool false, r)
      else (parseNum (c :: cs)).map fun p => (.num p.1, p.2)

/-- Read array items after the `[`, including the empty-array case. -/
def parseArrList : Nat → Cs → Option (JArr × Cs)
  | 0, _ => none
  | fuel + 1, s =>
    match parseVal fuel s with
    | none =>
      match skipWsJ s with
      | ']' :: r => some (.nil, r)
      | _ => none
    | some (v, r) =>
      match skipWsJ r with
      | ',' :: r2 => (parseArrList fuel r2).map fun p => (.cons v p.1, p.2)
      | ']' :: r2 => some (.cons v .nil, r2)
      | _ => none

/-- Read object fields after the opening brace, including the empty
object. -/
def parseObjList : Nat → Cs → Option (JObj × Cs)
  | 0, _ => none
  | fuel + 1, s =>
    match skipWsJ s with
    | [] => none
    | c :: cs =>
      if c = '"' then
        match parseStrBody cs.length cs with
        | none => none
        | some (k, r) =>
          match skipWsJ r with
          | ':' :: r2 =>
            match parseVal fuel r2 with
            | none => none
            | some (v, r3) =>
              match skipWsJ r3 with
              | ',' :: r4 => (parseObjList fuel r4).map fun p => (.cons k v p.1, p.2)
              | c2 :: r4 => if c2 = rbrace then some (.cons k v .nil, r4) else none
              | [] => none
          | _ => none
      else if c = rbrace then some (.nil, cs)
      else none
end

/-- `JSON.parse`: a whole-input JSON value, or failure. -/
def parseJson (s : Cs) : Option Json :=
  match parseVal (2 * s.length + 2) s with
  | some (v, r) => if (skipWsJ r).isEmpty then some v else none
  | none => none

/-- What may legally follow a serialized JSON value without extending it
(nothing, or a non-digit character). -/
def nextOk : Cs → Bool
  | [] => true
  | c :: _ => !isDigitChar c

mutual
/-- Fuel cost of parsing one serialized value. -/
def jsizeV : Json → Nat
  | .null | .bool _ | .num _ | .str _ => 1
  | .arr a => 2 + jsizeA a
  | .obj o => 2 + jsizeO o

def jsizeA : JArr → Nat
  | .nil => 0
  | .cons v tl => 1 + jsizeV v + jsizeA tl

def jsizeO : JObj → Nat
  | .nil => 0
  | .cons _ v tl => 1 + jsizeV v + jsizeO tl
end

/-- `saveState` from `state.ts`: the state file's contents after the
write. -/
def saveState (s : Json) : Option Cs := some (jsonStringify2 s)

/-- `loadState` from `state.ts`: parse the state file, treating a missing
or unreadable file as the empty state `\x7b\x7d`. -/
def loadState (file : Option Cs) : Json :=
  match file with
  | none => Json.obj .nil
  | some raw =>
    match parseJson raw with
    | some v => v
    | none => Json.obj .nil

/-- **C6.** The normalizer maps `"top"`, `"начало"` and `"Top!!"` to `top`,
maps `"bottom"`, `"конец"` and `"end"` to `bottom`, fails on `"middle"`,
and fails on every other token matching none of the synonym substrings
`top`/`нач`/`bottom`/`end`/`кон` (case-insensitively). -/
theorem C6_normalizer_synonym_mapping :
    normalizePlacementStrategy "top" = .ok .top ∧
    normalizePlacementStrategy "начало" = .ok .top ∧
    normalizePlacementStrategy "Top!!" = .ok .top ∧
    normalizePlacementStrategy "bottom" = .ok .bottom ∧
    normalizePlacementStrategy "конец" = .ok .bottom ∧
    normalizePlacementStrategy "end" = .ok .bottom ∧
    normalizePlacementStrategy "middle"
      = .error "placement_strategy должен быть top или bottom, а не: middle" ∧
    (∀ raw : String,
      occursIn "top".toList (jsToLower raw.toList) = false →
      occursIn "нач".toList (jsToLower raw.toList) = false →
      occursIn "bottom".toList (jsToLower raw.toList) = false →
      occursIn "end".toList (jsToLower raw.toList) = false →
      occursIn "кон".toList (jsToLower raw.toList) = false →
      normalizePlacementStrategy raw
        = .error ("placement_strategy должен быть top или bottom, а не: " ++ raw)) := by
  refine ⟨rfl, rfl, rfl, rfl, rfl, rfl, rfl, ?_⟩
  intro raw h1 h2 h3 h4 h5
  simp only [normalizePlacementStrategy, h1, h2, h3, h4, h5]
  rfl

/-- Witness for C6: the universal fallback clause applied at the concrete
token `"middle"`. -/
theorem C6_normalizer_synonym_mapping_witness :
    normalizePlacementStrategy "middle"
      = .error ("placement_strategy должен быть top или bottom, а не: " ++ "middle") :=
  C6_normalizer_synonym_mapping.2.2.2.2.2.2.2 "middle" rfl rfl rfl rfl rfl

/-! ## Regex-replacement scanners

`cleanWpPostContentMarkers` models the global empty replacement of the
pattern consisting of a comment opener, optional whitespace,
`/wp:post-content` (case-insensitive), optional whitespace and a comment
closer.  `stripCf7Shortcodes` models the global empty replacement of a
`[contact-form-7` opener followed by non-`]` characters and `]`.  Both
patterns are scanned left to right without rescanning removed material,
exactly as a JS global replace does, and neither pattern backtracks
(each greedy star is followed by a character disjoint from its set). -/
theorem dropLit_of_append (lit rest : Cs) : dropLit lit (lit ++ rest) = some rest := by
  induction lit with
  | nil => rfl
  | cons l ls ih => simp [dropLit, ih]

theorem dropLit_eq_some {lit s r : Cs} (h : dropLit lit s = some r) :
    s = lit ++ r := by
  induction lit generalizing s with
  | nil =>
    simp only [dropLit, Option.some.injEq] at h
    simp [h]
  | cons l ls ih =>
    cases s with
    | nil => simp [dropLit] at h
    | cons c cs =>
      by_cases hc : c = l
      · subst hc
        simp only [dropLit, if_pos rfl] at h
        simpa using ih h
      · simp [dropLit, hc] at h

theorem dropLitCI_eq_some {lit s r : Cs} (h : dropLitCI lit s = some r) :
    ∃ m, s = m ++ r ∧ m.map jsToLowerChar = lit := by
  induction lit generalizing s with
  | nil =>
    simp only [dropLitCI, Option.some.injEq] at h
    exact ⟨[], by simp [h], rfl⟩
  | cons l ls ih =>
    cases s with
    | nil => simp [dropLitCI] at h
    | cons c cs =>
      by_cases hc : jsToLowerChar c = l
      · simp only [dropLitCI, if_pos hc] at h
        obtain ⟨m, hm, hmap⟩ := ih h
        exact ⟨c :: m, by simp [hm], by simp [hmap, hc]⟩
      · simp [dropLitCI, hc] at h

theorem dropLitCI_of_append {lit m : Cs} (rest : Cs)
    (hmap : m.map jsToLowerChar = lit) :
    dropLitCI lit (m ++ rest) = some rest := by
  induction m generalizing lit with
  | nil => subst hmap; rfl
  | cons c m' ih =>
    subst hmap
    simp [dropLitCI, ih rfl]

theorem isWsChar_jsToLowerChar {c : Char} (h : isWsChar c = true) :
    jsToLowerChar c = c := by
  simp only [isWsChar, Bool.or_eq_true, decide_eq_true_eq] at h
  rcases h with ((((h | h) | h) | h) | h) | h <;> subst h <;> decide

theorem dropWhile_ws_append {w : Cs} (r : Cs) (hw : allWs w = true) :
    (w ++ r).dropWhile isWsChar = r.dropWhile isWsChar := by
  induction w with
  | nil => rfl
  | cons c w' ih =>
    simp only [allWs, List.all_cons, Bool.and_eq_true] at hw
    simp only [List.cons_append, List.dropWhile_cons, hw.1, if_pos]
    exact ih hw.2

theorem dropWhile_ws_id {c : Char} {cs : Cs} (hc : isWsChar c = false) :
    (c :: cs).dropWhile isWsChar = c :: cs := by
  simp [List.dropWhile_cons, hc]

/-- The matched-characters shape of one `wp:post-content` marker. -/
theorem matchWpMarker_eq_some_iff {s r : Cs} :
    matchWpMarker s = some r ↔
      ∃ w₁ m w₂, allWs w₁ = true ∧
        m.map jsToLowerChar = "/wp:post-content".toList ∧ allWs w₂ = true ∧
        s = "<!--".toList ++ w₁ ++ m ++ w₂ ++ "-->".toList ++ r := by
  constructor
  · intro h
    simp only [matchWpMarker, Option.bind_eq_some] at h
    obtain ⟨s1, h1, s2, h2, h3⟩ := h
    have hs1 : s = "<!--".toList ++ s1 := dropLit_eq_some h1
    obtain ⟨m, hm, hmap⟩ := dropLitCI_eq_some h2
    have h3' := dropLit_eq_some h3
    have htd2 : s2.takeWhile isWsChar ++ s2.dropWhile isWsChar = s2 :=
      List.takeWhile_append_dropWhile isWsChar s2
    have htd1 : s1.takeWhile isWsChar ++ s1.dropWhile isWsChar = s1 :=
      List.takeWhile_append_dropWhile isWsChar s1
    have e2 : s2 = s2.takeWhile isWsChar ++ ("-->".toList ++ r) := by
      conv_lhs => rw [← htd2]
      rw [h3']
    have e1 : s1 = s1.takeWhile isWsChar ++ (m ++ s2) := by
      conv_lhs => rw [← htd1]
      rw [hm]
    refine ⟨s1.takeWhile isWsChar, m, s2.takeWhile isWsChar, ?_, hmap, ?_, ?_⟩
    · simp only [allWs, List.all_eq_true]
      intro c hc
      exact List.mem_takeWhile_imp hc
    · simp only [allWs, List.all_eq_true]
      intro c hc
      exact List.mem_takeWhile_imp hc
    · conv_lhs => rw [hs1, e1, e2]
      simp
  · rintro ⟨w₁, m, w₂, hw₁, hmap, hw₂, rfl⟩
    have hmne : ∃ c cs, m = c :: cs ∧ isWsChar c = false := by
      cases m with
      | nil => simp at hmap
      | cons c cs =>
        simp only [List.map_cons] at hmap
        have hc : jsToLowerChar c = '/' := by
          have ht := hmap
          injection ht
        refine ⟨c, cs, rfl, ?_⟩
        cases hx : isWsChar c with
        | false => rfl
        | true =>
          have hcc : jsToLowerChar c = c := isWsChar_jsToLowerChar hx
          rw [hcc] at hc
          subst hc
          simp [isWsChar] at hx
    obtain ⟨c, cs, rfl, hcw⟩ := hmne
    simp only [matchWpMarker, Option.bind_eq_some]
    refine ⟨w₁ ++ ((c :: cs) ++ (w₂ ++ ("-->".toList ++ r))), ?_,
      w₂ ++ ("-->".toList ++ r), ?_, ?_⟩
    · rw [show ("<!--".toList ++ w₁ ++ (c :: cs) ++ w₂ ++ "-->".toList ++ r)
          = "<!--".toList ++ (w₁ ++ ((c :: cs) ++ (w₂ ++ ("-->".toList ++ r)))) by simp]
      exact dropLit_of_append _ _
    · rw [dropWhile_ws_append _ hw₁]
      simp only [List.cons_append]
      rw [dropWhile_ws_id hcw]
      have := @dropLitCI_of_append "/wp:post-content".toList
        (c :: cs) (w₂ ++ ("-->".toList ++ r)) hmap
      simpa using this
    · rw [dropWhile_ws_append _ hw₂]
      rw [show ("-->".toList ++ r) = '-' :: ('-' :: '>' :: r) from rfl]
      rw [dropWhile_ws_id (by decide)]
      exact dropLit_of_append "-->".toList r

theorem noLt_iff {s : Cs} : noLt s = true ↔ '<' ∉ s := by
  simp only [noLt, List.all_eq_true, decide_eq_true_eq]
  constructor
  · intro h hm
    exact (h '<' hm) rfl
  · intro h c hc hceq
    exact h (hceq ▸ hc)

theorem allWs_noLt {w : Cs} (hw : allWs w = true) : noLt w = true := by
  rw [noLt_iff]
  intro hm
  simp only [allWs, List.all_eq_true] at hw
  have := hw '<' hm
  simp [isWsChar] at this

theorem mapLower_noLt {m : Cs}
    (hmap : m.map jsToLowerChar = "/wp:post-content".toList) : noLt m = true := by
  rw [noLt_iff]
  intro hm
  have : jsToLowerChar '<' ∈ "/wp:post-content".toList := hmap ▸ List.mem_map_of_mem jsToLowerChar hm
  revert this
  decide

/-- In `a ++ '<' :: b = cpre ++ d`, a `<`-free `cpre` ends no later than `a`. -/
theorem noLt_split {cpre : Cs} :
    ∀ {a b d : Cs}, a ++ '<' :: b = cpre ++ d → noLt cpre = true →
      cpre.length ≤ a.length := by
  induction cpre with
  | nil => intro a b d _ _; simp
  | cons x ct ih =>
    intro a b d heq hlt
    simp only [noLt, List.all_cons, Bool.and_eq_true, decide_eq_true_eq] at hlt
    cases a with
    | nil =>
      simp only [List.nil_append, List.cons_append] at heq
      have : '<' = x := by injection heq
      exact absurd this.symm hlt.1
    | cons y at' =>
      simp only [List.cons_append] at heq
      have htl : at' ++ '<' :: b = ct ++ d := by injection heq
      have := ih htl (by simp [noLt, List.all_eq_true] at hlt ⊢; exact hlt.2)
      simpa using Nat.succ_le_succ this

/-- A successful marker match that starts strictly before a `<` (coming from
material appended after `x`) is contained in `x`: the pattern has `<` only
as its first character. -/
theorem matchWpMarker_before_lt {x z r : Cs} (hx : x ≠ [])
    (h : matchWpMarker (x ++ '<' :: z) = some r) :
    ∃ e, matchWpMarker x = some e ∧ r = e ++ '<' :: z := by
  obtain ⟨w₁, m, w₂, hw₁, hmap, hw₂, heq⟩ := matchWpMarker_eq_some_iff.1 h
  cases x with
  | nil => exact absurd rfl hx
  | cons x₀ xt =>
    have heq' : x₀ :: (xt ++ '<' :: z)
        = '<' :: (("!--".toList ++ w₁ ++ m ++ w₂ ++ "-->".toList) ++ r) := by
      simpa using heq
    have hx₀ : x₀ = '<' := by injection heq'
    have htl : xt ++ '<' :: z = ("!--".toList ++ w₁ ++ m ++ w₂ ++ "-->".toList) ++ r := by
      injection heq'
    have hnlt : noLt ("!--".toList ++ w₁ ++ m ++ w₂ ++ "-->".toList) = true := by
      simp only [noLt, List.all_append, Bool.and_eq_true]
      refine ⟨⟨⟨⟨by decide, allWs_noLt hw₁⟩, mapLower_noLt hmap⟩, allWs_noLt hw₂⟩, by decide⟩
    have hlen := noLt_split htl hnlt
    rcases List.append_eq_append_iff.1 htl with ⟨a', hc, hz⟩ | ⟨e, hxt, hr⟩
    · have ha' : a' = [] := by
        have h1 := congrArg List.length hc
        simp only [List.length_append] at h1 hlen
        have : a'.length = 0 := by omega
        exact List.length_eq_zero.1 this
      subst ha'
      refine ⟨[], ?_, by simpa using hz.symm⟩
      apply matchWpMarker_eq_some_iff.2
      refine ⟨w₁, m, w₂, hw₁, hmap, hw₂, ?_⟩
      have hxt : xt = "!--".toList ++ w₁ ++ m ++ w₂ ++ "-->".toList := by
        simpa using hc.symm
      rw [hx₀, hxt]
      simp
    · refine ⟨e, ?_, by simp [hr]⟩
      apply matchWpMarker_eq_some_iff.2
      refine ⟨w₁, m, w₂, hw₁, hmap, hw₂, ?_⟩
      rw [hx₀, hxt]
      simp

/-- A successful marker match is unaffected by appending further input. -/
theorem matchWpMarker_append {x e : Cs} (t : Cs)
    (h : matchWpMarker x = some e) : matchWpMarker (x ++ t) = some (e ++ t) := by
  obtain ⟨w₁, m, w₂, hw₁, hmap, hw₂, heq⟩ := matchWpMarker_eq_some_iff.1 h
  apply matchWpMarker_eq_some_iff.2
  exact ⟨w₁, m, w₂, hw₁, hmap, hw₂, by rw [heq]; simp⟩

theorem wpFree_cons {c : Char} {cs : Cs} :
    wpFree (c :: cs) = ((matchWpMarker (c :: cs)).isNone && wpFree cs) := rfl

theorem wpFree_append_right {A B : Cs} (h : wpFree (A ++ B) = true) :
    wpFree B = true := by
  induction A with
  | nil => exact h
  | cons c A' ih =>
    rw [List.cons_append, wpFree_cons, Bool.and_eq_true] at h
    exact ih h.2

theorem wpCleanF_of_wpFree {s : Cs} (h : wpFree s = true) :
    ∀ fuel, wpCleanF fuel s = s := by
  induction s with
  | nil => intro fuel; cases fuel <;> rfl
  | cons c cs ih =>
    intro fuel
    cases fuel with
    | zero => rfl
    | succ f =>
      rw [wpFree_cons, Bool.and_eq_true, Option.isNone_iff_eq_none] at h
      simp only [wpCleanF, h.1]
      rw [ih h.2 f]

/-- Removing one well-separated canonical marker: if the pattern does not
occur in `A ++ B`, the scan erases exactly the embedded canonical marker. -/
theorem wpCleanF_cut :
    ∀ (A : Cs) {B : Cs} (fuel : Nat), wpFree (A ++ B) = true →
      A.length < fuel → wpCleanF fuel (A ++ wpMarkerCanon ++ B) = A ++ B := by
  intro A
  induction A with
  | nil =>
    intro B fuel hfree hfuel
    cases fuel with
    | zero => omega
    | succ f =>
      have hmatch : matchWpMarker (wpMarkerCanon ++ B) = some B := by
        apply matchWpMarker_eq_some_iff.2
        exact ⟨[' '], "/wp:post-content".toList, [' '], by decide, by decide, by decide, rfl⟩
      have hshape : ([] : Cs) ++ wpMarkerCanon ++ B
          = '<' :: ("!-- /wp:post-content -->".toList ++ B) := rfl
      rw [hshape]
      simp only [wpCleanF]
      rw [show matchWpMarker ('<' :: ("!-- /wp:post-content -->".toList ++ B)) = some B
        from hmatch]
      exact wpCleanF_of_wpFree hfree f
  | cons c A' ih =>
    intro B fuel hfree hfuel
    cases fuel with
    | zero => omega
    | succ f =>
      have hfree' : wpFree (A' ++ B) = true := by
        rw [List.cons_append, wpFree_cons, Bool.and_eq_true] at hfree
        exact hfree.2
      have hnone : matchWpMarker ((c :: A') ++ wpMarkerCanon ++ B) = none := by
        cases hm : matchWpMarker ((c :: A') ++ wpMarkerCanon ++ B) with
        | none => rfl
        | some r =>
          have hm' : matchWpMarker ((c :: A') ++ '<' ::
              ("!-- /wp:post-content -->".toList ++ B)) = some r := by
            rw [show ((c :: A') ++ '<' :: ("!-- /wp:post-content -->".toList ++ B))
                = (c :: A') ++ wpMarkerCanon ++ B by simp [wpMarkerCanon]]
            exact hm
          obtain ⟨e, he, _⟩ := matchWpMarker_before_lt (by simp) hm'
          have := matchWpMarker_append B he
          rw [List.cons_append, wpFree_cons] at hfree
          rw [List.cons_append] at this
          rw [this] at hfree
          simp at hfree
      have hstep : wpCleanF (f + 1) ((c :: A') ++ wpMarkerCanon ++ B)
          = c :: wpCleanF f (A' ++ wpMarkerCanon ++ B) := by
        rw [show ((c :: A') ++ wpMarkerCanon ++ B)
            = c :: (A' ++ wpMarkerCanon ++ B) by simp]
        simp only [wpCleanF]
        rw [show matchWpMarker (c :: (A' ++ wpMarkerCanon ++ B)) = none by
          rw [show (c :: (A' ++ wpMarkerCanon ++ B))
              = ((c :: A') ++ wpMarkerCanon ++ B) by simp]
          exact hnone]
      rw [hstep, ih f hfree' (by simpa using Nat.lt_of_succ_lt_succ hfuel)]
      simp

/-- `cleanWpPostContentMarkers` on a pattern-free string is the identity. -/
theorem cleanWp_of_wpFree {s : Cs} (h : wpFree s = true) :
    cleanWpPostContentMarkers s = s :=
  wpCleanF_of_wpFree h _

/-- `cleanWpPostContentMarkers` erases an embedded canonical marker when the
pattern does not occur in the surrounding material. -/
theorem cleanWp_cut {A B : Cs} (hfree : wpFree (A ++ B) = true) :
    cleanWpPostContentMarkers (A ++ wpMarkerCanon ++ B) = A ++ B := by
  unfold cleanWpPostContentMarkers
  apply wpCleanF_cut A _ hfree
  have : 0 < wpMarkerCanon.length := by decide
  simp only [List.length_append]
  omega

/-! ## The DOM model

`cheerio.load` with htmlparser2 fragment semantics, as the source uses it:
no implicit `html`/`body` wrappers are synthesised, tag names are
lowercased, a close tag matching the innermost open element closes it and
any other close tag is ignored, unclosed elements are closed at end of
input, and `decodeEntities: false` passes text through verbatim.
Attributes are kept as their raw source text. -/

theorem happend_nilR : ∀ f : HForest, happend f .nil = f
  | .nil => rfl
  | .cons n rest => by rw [happend, happend_nilR rest]

theorem hasTagF_happend (t : Cs) :
    ∀ f g : HForest, hasTagF t (happend f g) = (hasTagF t f || hasTagF t g)
  | .nil, g => by simp [happend, hasTagF]
  | .cons n rest, g => by
    rw [happend, hasTagF, hasTagF, hasTagF_happend t rest g, Bool.or_assoc]

/-- **C9 (counterexample).** The block is *not* re-cleaned of contact-form-7
artifacts: a `[contact-form-7 …]` shortcode inside `widgetHtml` survives
into the block as it appears in the engine's output. -/
theorem C9_block_reclean_counterexample :
    occursIn "[contact-form-7".toList "[contact-form-7 id=\"5\"]".toList = true ∧
    occursIn "[contact-form-7".toList
      (insertWidgetHtml "<article><p>Hi</p></article>".toList "w1".toList
        "[contact-form-7 id=\"5\"]".toList "Go".toList Placement.top).html = true := by
  exact ⟨rfl, rfl⟩

/-- **C9 (amended).** The insertion block is re-cleaned only of
`wp:post-content` end-markers (one global-replace pass): for every
`widgetHtml` carrying a canonical end-marker whose removal does not splice
together a new occurrence of the pattern (the pattern does not occur in the
rest of the raw block), the block the engine builds is the raw block with
that marker removed, and the pattern does not occur in it.  Contact-form-7
artifacts are not removed from the block. -/
theorem C9_block_reclean_amended (widgetId ctaText u v : Cs)
    (hfree : wpFree (buildBlockRaw widgetId ctaText (u ++ v)) = true) :
    buildBlock widgetId ctaText (u ++ wpMarkerCanon ++ v)
      = buildBlockRaw widgetId ctaText (u ++ v) ∧
    wpFree (buildBlock widgetId ctaText (u ++ wpMarkerCanon ++ v)) = true := by
  have e1 : buildBlockRaw widgetId ctaText (u ++ wpMarkerCanon ++ v)
      = ("<!-- ai-cta:start id=".toList ++ widgetId
          ++ " -->\n<p class=\"ai-cta-text\">".toList ++ ctaText
          ++ "</p>\n".toList ++ u) ++ wpMarkerCanon
        ++ (v ++ "\n<!-- ai-cta:end -->".toList) := by
    simp [buildBlockRaw]
  have e2 : buildBlockRaw widgetId ctaText (u ++ v)
      = ("<!-- ai-cta:start id=".toList ++ widgetId
          ++ " -->\n<p class=\"ai-cta-text\">".toList ++ ctaText
          ++ "</p>\n".toList ++ u)
        ++ (v ++ "\n<!-- ai-cta:end -->".toList) := by
    simp [buildBlockRaw]
  have hfree' := hfree
  rw [e2] at hfree'
  have hcut := cleanWp_cut hfree'
  have hmain : buildBlock widgetId ctaText (u ++ wpMarkerCanon ++ v)
      = buildBlockRaw widgetId ctaText (u ++ v) := by
    show cleanWpPostContentMarkers (buildBlockRaw widgetId ctaText (u ++ wpMarkerCanon ++ v))
      = buildBlockRaw widgetId ctaText (u ++ v)
    rw [e1, hcut, ← e2]
  exact ⟨hmain, by rw [hmain]; exact hfree⟩

/-- Witness for C9: the amended statement at a concrete widget fragment
carrying one canonical end-marker. -/
theorem C9_block_reclean_amended_witness :
    wpFree (buildBlockRaw "w1".toList "Go".toList
      ("<div>A".toList ++ "B</div>".toList)) = true ∧
    (buildBlock "w1".toList "Go".toList
        ("<div>A".toList ++ wpMarkerCanon ++ "B</div>".toList)
      = buildBlockRaw "w1".toList "Go".toList ("<div>A".toList ++ "B</div>".toList) ∧
    wpFree (buildBlock "w1".toList "Go".toList
      ("<div>A".toList ++ wpMarkerCanon ++ "B</div>".toList)) = true) :=
  ⟨rfl, C9_block_reclean_amended "w1".toList "Go".toList "<div>A".toList "B</div>".toList rfl⟩

/-- **C7 (counterexample).** An input with no `article` and no `body`
element for which `insertWidgetHtml(…, top)` does *not* fall back to the
root: the contact-form-7 string pre-clean splices `<art` and `icle>` into
an `<article>` tag, so the placement reports `container = article`. -/
theorem C7_container_fallback_counterexample :
    hasTagF "article".toList
      (parseHtml "<art[contact-form-7 q]icle><p>Hi</p>".toList) = false ∧
    hasTagF "body".toList
      (parseHtml "<art[contact-form-7 q]icle><p>Hi</p>".toList) = false ∧
    (insertWidgetHtml "<art[contact-form-7 q]icle><p>Hi</p>".toList "w1".toList
        "W".toList "Go".toList Placement.top).placement
      = some ⟨Container.article, Placement.top, InsMethod.afterFirstP⟩ := by
  exact ⟨rfl, rfl, rfl⟩

/-- **C7 (amended).** For every input whose *pre-cleaned* document contains
no `article` and no `body` element, and whose insertion block likewise
carries none, `insertWidgetHtml(…, top)` prepends the block at the document
root and reports `container = root`, `method = prepend`. -/
theorem C7_container_fallback_amended (html widgetId widgetHtml ctaText : Cs)
    (hart : hasTagF "article".toList (parseHtml (cleanWpPostContentMarkers
      (removeContactFormShortcodesAndForms html))) = false)
    (hbody : hasTagF "body".toList (parseHtml (cleanWpPostContentMarkers
      (removeContactFormShortcodesAndForms html))) = false)
    (hbart : hasTagF "article".toList
      (parseHtml (buildBlock widgetId ctaText widgetHtml ++ ['\n'])) = false)
    (hbbody : hasTagF "body".toList
      (parseHtml (buildBlock widgetId ctaText widgetHtml ++ ['\n'])) = false) :
    (insertWidgetHtml html widgetId widgetHtml ctaText Placement.top).placement
      = some ⟨Container.root, Placement.top, InsMethod.prepend⟩ ∧
    (insertWidgetHtml html widgetId widgetHtml ctaText Placement.top).html
      = cleanWpPostContentMarkers (renderF (happend
          (parseHtml (buildBlock widgetId ctaText widgetHtml ++ ['\n']))
          (parseHtml (cleanWpPostContentMarkers
            (removeContactFormShortcodesAndForms html))))) := by
  unfold insertWidgetHtml
  simp only [hart, hbody, Bool.false_and, Bool.cond_false,
    hasTagF_happend, hbart, hbbody, Bool.or_self]
  exact ⟨trivial, trivial⟩

/-- Witness for C7: the amended statement at the concrete article body
`"Hello there"` (no tags at all). -/
theorem C7_container_fallback_amended_witness :
    (insertWidgetHtml "Hello there".toList "w1".toList "W".toList "Go".toList
        Placement.top).placement
      = some ⟨Container.root, Placement.top, InsMethod.prepend⟩ ∧
    (insertWidgetHtml "Hello there".toList "w1".toList "W".toList "Go".toList
        Placement.top).html
      = cleanWpPostContentMarkers (renderF (happend
          (parseHtml (buildBlock "w1".toList "Go".toList "W".toList ++ ['\n']))
          (parseHtml (cleanWpPostContentMarkers
            (removeContactFormShortcodesAndForms "Hello there".toList))))) :=
  C7_container_fallback_amended "Hello there".toList "w1".toList "W".toList
    "Go".toList rfl rfl rfl rfl

/-- **C8 (counterexample).** In the top-insertion scenario the engine
returns the `article` element's *inner* HTML: the output contains no
`<article` at all (so it does not contain
`<article><p>Hello</p>…</article>` as the claim states), although
`method = afterFirstP` does hold. -/
theorem C8_top_insertion_counterexample :
    occursIn "<article".toList
      (insertWidgetHtml "<article><p>Hello</p></article>".toList "w1".toList
        "<a href=\"https://shkolamasterov.online/pl/lite/widget\">Go</a>".toList
        "Click!".toList Placement.top).html = false ∧
    (insertWidgetHtml "<article><p>Hello</p></article>".toList "w1".toList
        "<a href=\"https://shkolamasterov.online/pl/lite/widget\">Go</a>".toList
        "Click!".toList Placement.top).placement
      = some ⟨Container.article, Placement.top, InsMethod.afterFirstP⟩ := by
  exact ⟨rfl, rfl⟩

/-- **C8 (amended).** For input `<article><p>Hello</p></article>`, widget id
`w1`, lead `"Click!"` and position `top`, the output is the article's inner
HTML: `<p>Hello</p>`, a newline, the marked block, and a newline — without
the `<article>`/`</article>` wrapper — and `placement.method = afterFirstP`
with `container = article`.  (Stated for every `widgetHtml` whose parsed
insertion fragment re-serializes to itself and whose block leaves the
result free of `wp:post-content` markers.) -/
theorem C8_top_insertion_amended (widgetHtml : Cs)
    (hrt : renderF (parseHtml ('\n' :: buildBlock "w1".toList "Click!".toList widgetHtml
        ++ ['\n']))
      = '\n' :: buildBlock "w1".toList "Click!".toList widgetHtml ++ ['\n'])
    (hstable : wpFree ("<p>Hello</p>".toList
      ++ ('\n' :: buildBlock "w1".toList "Click!".toList widgetHtml ++ ['\n'])) = true) :
    (insertWidgetHtml "<article><p>Hello</p></article>".toList "w1".toList widgetHtml
        "Click!".toList Placement.top).html
      = "<p>Hello</p>".toList
          ++ ('\n' :: buildBlock "w1".toList "Click!".toList widgetHtml ++ ['\n']) ∧
    (insertWidgetHtml "<article><p>Hello</p></article>".toList "w1".toList widgetHtml
        "Click!".toList Placement.top).placement
      = some ⟨Container.article, Placement.top, InsMethod.afterFirstP⟩ := by
  have key : insertWidgetHtml "<article><p>Hello</p></article>".toList "w1".toList
      widgetHtml "Click!".toList Placement.top
      = { html := cleanWpPostContentMarkers ("<p>Hello</p>".toList
            ++ renderF (happend (parseHtml ('\n' :: buildBlock "w1".toList
              "Click!".toList widgetHtml ++ ['\n'])) .nil)),
          placement := some ⟨Container.article, Placement.top, InsMethod.afterFirstP⟩ } := rfl
  rw [key]
  refine ⟨?_, rfl⟩
  rw [happend_nilR, hrt]
  exact cleanWp_of_wpFree hstable

/-- Witness for C8: the amended statement at a concrete widget embed. -/
theorem C8_top_insertion_amended_witness :
    (insertWidgetHtml "<article><p>Hello</p></article>".toList "w1".toList
        "<a href=\"https://shkolamasterov.online/pl/lite/widget\">Go</a>".toList
        "Click!".toList Placement.top).html
      = "<p>Hello</p>".toList
          ++ ('\n' :: buildBlock "w1".toList "Click!".toList
            "<a href=\"https://shkolamasterov.online/pl/lite/widget\">Go</a>".toList
            ++ ['\n']) ∧
    (insertWidgetHtml "<article><p>Hello</p></article>".toList "w1".toList
        "<a href=\"https://shkolamasterov.online/pl/lite/widget\">Go</a>".toList
        "Click!".toList Placement.top).placement
      = some ⟨Container.article, Placement.top, InsMethod.afterFirstP⟩ :=
  C8_top_insertion_amended
    "<a href=\"https://shkolamasterov.online/pl/lite/widget\">Go</a>".toList rfl rfl

/-- **C1 (counterexample).** The gated cap fails in two ways. A document
already holding three embed signatures is left unchanged by a gated run,
its count 3 above the cap of 2; and an empty document — count 0, gate
open — receives, in a single gated insertion of a widgetHtml that itself
carries three embed signatures, a body whose count is 3. Either way "the
resulting count never exceeds 2" fails. -/
theorem C1_at_most_cap_counterexample :
    2 < countWidgets (gatedInsertIter "w1".toList "W".toList "Go".toList
      Placement.top 1 (widgetSig ++ widgetSig ++ widgetSig)) ∧
    countWidgets [] = 0 ∧
    2 < countWidgets (gatedInsertStep "w1".toList
      (widgetSig ++ widgetSig ++ widgetSig) "Go".toList Placement.top []) := by
  refine ⟨by decide, by decide, by decide⟩

/-- **C1 (amended).** With the orchestrator's pre-check gate honored:
(freeze) a document whose widget count is already at least 2 is returned
unchanged by a gated step, so the count never grows past the cap once the
cap is reached; and (trace-back) the count after any number of gated runs
exceeds 2 only when the original body's count already exceeded 2, or when
some single open-gate insertion — performed on a document whose count was
at most 1 — itself produced a count above 2, as a widgetHtml carrying
several embed signatures really does. -/
theorem C1_at_most_cap_amended (widgetId widgetHtml ctaText : Cs)
    (position : Placement) (h : Cs) (N : Nat) :
    (∀ doc : Cs, 2 ≤ countWidgets doc →
      gatedInsertStep widgetId widgetHtml ctaText position doc = doc) ∧
    (2 < countWidgets (gatedInsertIter widgetId widgetHtml ctaText position N h) →
      2 < countWidgets h ∨
      ∃ k, countWidgets (gatedInsertIter widgetId widgetHtml ctaText position k h) ≤ 1 ∧
        2 < countWidgets (gatedInsertIter widgetId widgetHtml ctaText position (k + 1) h)) := by
  constructor
  · intro doc hge
    unfold gatedInsertStep
    rw [if_pos hge]
  · intro hgt
    induction N with
    | zero => exact Or.inl hgt
    | succ n ih =>
      by_cases hc : 2 < countWidgets (gatedInsertIter widgetId widgetHtml ctaText position n h)
      · exact ih hc
      · push_neg at hc
        rcases Nat.lt_or_ge (countWidgets (gatedInsertIter widgetId widgetHtml ctaText position n h)) 2
          with hlt | hge
        · exact Or.inr ⟨n, Nat.lt_succ_iff.1 hlt, hgt⟩
        · have hfix : gatedInsertIter widgetId widgetHtml ctaText position (n + 1) h
              = gatedInsertIter widgetId widgetHtml ctaText position n h := by
            show gatedInsertStep widgetId widgetHtml ctaText position
              (gatedInsertIter widgetId widgetHtml ctaText position n h)
              = gatedInsertIter widgetId widgetHtml ctaText position n h
            unfold gatedInsertStep
            rw [if_pos hge]
          rw [hfix] at hgt
          omega

/-! ## The State Store

`state.ts`: `saveState` writes `JSON.stringify(state, null, 2)` to the
state file; `loadState` reads it back through `JSON.parse`, returning `{}`
for a missing or unreadable file.  JSON values are modelled with integer
numbers (the ids this program stores) and scalar-value strings; the
stringifier reproduces the two-space pretty-printing, and the parsing side
is a standard recursive-descent JSON reader (whitespace-tolerant). -/

theorem jsSetAdd_mem {s : List Nat} {x y : Nat} :
    y ∈ jsSetAdd s x ↔ y ∈ s ∨ y = x := by
  unfold jsSetAdd
  by_cases hx : x ∈ s
  · rw [if_pos hx]
    constructor
    · exact Or.inl
    · rintro (h | rfl)
      · exact h
      · exact hx
  · rw [if_neg hx]
    simp

theorem runBatch_mono {success : Nat → Bool} {pid : Nat} :
    ∀ {b : List Nat} {s : List Nat}, pid ∈ s → pid ∈ runBatch success s b := by
  intro b
  induction b with
  | nil => intro s h; exact h
  | cons x xs ih =>
    intro s h
    show pid ∈ runBatch success (if success x then jsSetAdd s x else s) xs
    apply ih
    by_cases hx : success x
    · rw [if_pos hx]; exact jsSetAdd_mem.2 (Or.inl h)
    · rw [if_neg hx]; exact h

theorem runBatch_mem_succ {success : Nat → Bool} {pid : Nat}
    (hsucc : success pid = true) :
    ∀ {b : List Nat} (s : List Nat), pid ∈ b → pid ∈ runBatch success s b := by
  intro b
  induction b with
  | nil => intro s h; exact absurd h (List.not_mem_nil pid)
  | cons x xs ih =>
    intro s h
    show pid ∈ runBatch success (if success x then jsSetAdd s x else s) xs
    rcases List.mem_cons.1 h with rfl | hxs
    · apply runBatch_mono
      rw [if_pos hsucc]
      exact jsSetAdd_mem.2 (Or.inr rfl)
    · exact ih _ hxs

theorem runBatch_not_mem {success : Nat → Bool} {pid : Nat}
    (hfail : success pid = false) :
    ∀ {b : List Nat} {s : List Nat}, pid ∉ s → pid ∉ runBatch success s b := by
  intro b
  induction b with
  | nil => intro s h; exact h
  | cons x xs ih =>
    intro s h
    show pid ∉ runBatch success (if success x then jsSetAdd s x else s) xs
    apply ih
    by_cases hx : success x
    · rw [if_pos hx]
      intro hmem
      rcases jsSetAdd_mem.1 hmem with hmem | rfl
      · exact h hmem
      · rw [hx] at hfail; exact absurd hfail (by simp)
    · rw [if_neg hx]; exact h

theorem dispatchedIds_append (t1 t2 : List RunEvent) :
    dispatchedIds (t1 ++ t2) = dispatchedIds t1 ++ dispatchedIds t2 := by
  induction t1 with
  | nil => rfl
  | cons e rest ih =>
    cases e with
    | batch b =>
      show b ++ dispatchedIds (rest ++ t2) = (b ++ dispatchedIds rest) ++ dispatchedIds t2
      rw [ih, List.append_assoc]
    | save p =>
      show dispatchedIds (rest ++ t2) = dispatchedIds rest ++ dispatchedIds t2
      exact ih

theorem mem_dispatched_of_batch {b : List Nat} {pid : Nat} (hpid : pid ∈ b) :
    ∀ {trace : List RunEvent}, RunEvent.batch b ∈ trace →
      pid ∈ dispatchedIds trace := by
  intro trace
  induction trace with
  | nil => intro h; exact absurd h (List.not_mem_nil _)
  | cons e rest ih =>
    intro h
    rcases List.mem_cons.1 h with rfl | hrest
    · show pid ∈ b ++ dispatchedIds rest
      exact List.mem_append.2 (Or.inl hpid)
    · cases e with
      | batch b' =>
        show pid ∈ b' ++ dispatchedIds rest
        exact List.mem_append.2 (Or.inr (ih hrest))
      | save p =>
        show pid ∈ dispatchedIds rest
        exact ih hrest

theorem runBatches_mono {success : Nat → Bool} {pid : Nat} :
    ∀ {bs : List (List Nat)} {acc : RunAcc}, pid ∈ acc.processed →
      pid ∈ (runBatches success bs acc).processed := by
  intro bs
  induction bs with
  | nil => intro acc h; exact h
  | cons b rest ih =>
    intro acc h
    unfold runBatches
    by_cases hc : 600 ≤ acc.total + b.length
    · rw [if_pos hc]; exact runBatch_mono h
    · rw [if_neg hc]; exact ih (runBatch_mono h)

theorem dispatchedIds_one_batch (b : List Nat) :
    dispatchedIds [RunEvent.batch b] = b := by
  show b ++ dispatchedIds [] = b
  simp [dispatchedIds]

theorem runBatches_dispatch {success : Nat → Bool} {pid : Nat} :
    ∀ {bs : List (List Nat)} {acc : RunAcc},
      pid ∈ dispatchedIds (runBatches success bs acc).trace →
      pid ∈ dispatchedIds acc.trace ∨ pid ∈ bs.flatten := by
  intro bs
  induction bs with
  | nil => intro acc h; exact Or.inl h
  | cons b rest ih =>
    intro acc h
    unfold runBatches at h
    by_cases hc : 600 ≤ acc.total + b.length
    · rw [if_pos hc] at h
      simp only [dispatchedIds_append, dispatchedIds_one_batch] at h
      rcases List.mem_append.1 h with h | h
      · exact Or.inl h
      · exact Or.inr (by simp only [List.flatten_cons, List.mem_append]; exact Or.inl h)
    · rw [if_neg hc] at h
      rcases ih h with h | h
      · simp only [dispatchedIds_append, dispatchedIds_one_batch] at h
        rcases List.mem_append.1 h with h | h
        · exact Or.inl h
        · exact Or.inr (by simp only [List.flatten_cons, List.mem_append]; exact Or.inl h)
      · exact Or.inr (by simp only [List.flatten_cons, List.mem_append]; exact Or.inr h)

theorem runBatches_inv_succ {success : Nat → Bool} {pid : Nat}
    (hsucc : success pid = true) :
    ∀ {bs : List (List Nat)} {acc : RunAcc},
      (pid ∈ dispatchedIds acc.trace → pid ∈ acc.processed) →
      (pid ∈ dispatchedIds (runBatches success bs acc).trace →
        pid ∈ (runBatches success bs acc).processed) := by
  intro bs
  induction bs with
  | nil => intro acc hinv h; exact hinv h
  | cons b rest ih =>
    intro acc hinv h
    have hstep : pid ∈ dispatchedIds (acc.trace ++ [RunEvent.batch b]) →
        pid ∈ runBatch success acc.processed b := by
      intro hd
      rw [dispatchedIds_append] at hd
      rcases List.mem_append.1 hd with hd | hd
      · exact runBatch_mono (hinv hd)
      · rw [dispatchedIds_one_batch] at hd
        exact runBatch_mem_succ hsucc _ hd
    unfold runBatches at h ⊢
    by_cases hc : 600 ≤ acc.total + b.length
    · rw [if_pos hc] at h ⊢
      exact hstep h
    · rw [if_neg hc] at h ⊢
      exact ih hstep h

theorem runBatches_inv_fail {success : Nat → Bool} {pid : Nat}
    (hfail : success pid = false) :
    ∀ {bs : List (List Nat)} {acc : RunAcc}, pid ∉ acc.processed →
      pid ∉ (runBatches success bs acc).processed := by
  intro bs
  induction bs with
  | nil => intro acc h; exact h
  | cons b rest ih =>
    intro acc h
    unfold runBatches
    by_cases hc : 600 ≤ acc.total + b.length
    · rw [if_pos hc]; exact runBatch_not_mem hfail h
    · rw [if_neg hc]; exact ih (runBatch_not_mem hfail h)

theorem chunk_join_sub {pid : Nat} :
    ∀ {fuel n : Nat} {l : List Nat}, pid ∈ (chunkF fuel n l).flatten → pid ∈ l := by
  intro fuel
  induction fuel with
  | zero => intro n l h; simp [chunkF] at h
  | succ f ih =>
    intro n l h
    cases l with
    | nil => simp [chunkF] at h
    | cons x xs =>
      simp only [chunkF, List.flatten_cons, List.mem_append] at h
      rcases h with h | h
      · exact List.mem_of_mem_take h
      · exact List.mem_of_mem_drop (ih h)

theorem runPages_final_save (success : Nat → Bool) (limit par : Nat) :
    ∀ (pages : List (List Nat)) (processed : List Nat) (total : Nat)
      (trace : List RunEvent),
      ∃ t, (runPages success limit par pages processed total trace).2
        = t ++ [RunEvent.save (runPages success limit par pages processed total trace).1] := by
  intro pages
  induction pages with
  | nil => intro processed total trace; exact ⟨trace, rfl⟩
  | cons posts rest ih =>
    intro processed total trace
    unfold runPages
    by_cases h1 : 600 ≤ total
    · rw [if_pos h1]; exact ⟨trace, rfl⟩
    · rw [if_neg h1]
      by_cases h2 : posts.isEmpty
      · rw [if_pos h2]; exact ⟨trace, rfl⟩
      · rw [if_neg h2]
        by_cases h3 : ((posts.filter (fun pid => !processed.contains pid)).take limit).isEmpty
        · rw [if_pos h3]; exact ⟨trace, rfl⟩
        · rw [if_neg h3]
          exact ih _ _ _

theorem runPages_dispatch_fresh (success : Nat → Bool) (limit par : Nat)
    {pid : Nat} :
    ∀ (pages : List (List Nat)) (processed : List Nat) (total : Nat)
      (trace : List RunEvent),
      pid ∈ dispatchedIds (runPages success limit par pages processed total trace).2 →
      pid ∈ dispatchedIds trace ∨ pid ∉ processed := by
  intro pages
  induction pages with
  | nil =>
    intro processed total trace h
    simp only [runPages, dispatchedIds_append] at h
    rcases List.mem_append.1 h with h | h
    · exact Or.inl h
    · exact absurd h (by simp [dispatchedIds])
  | cons posts rest ih =>
    intro processed total trace h
    have hbase : pid ∈ dispatchedIds (trace ++ [RunEvent.save processed]) →
        pid ∈ dispatchedIds trace ∨ pid ∉ processed := by
      intro hd
      rw [dispatchedIds_append] at hd
      rcases List.mem_append.1 hd with hd | hd
      · exact Or.inl hd
      · exact absurd hd (by simp [dispatchedIds])
    unfold runPages at h
    by_cases h1 : 600 ≤ total
    · rw [if_pos h1] at h; exact hbase h
    · rw [if_neg h1] at h
      by_cases h2 : posts.isEmpty
      · rw [if_pos h2] at h; exact hbase h
      · rw [if_neg h2] at h
        by_cases h3 : ((posts.filter (fun pid => !processed.contains pid)).take limit).isEmpty
        · rw [if_pos h3] at h; exact hbase h
        · rw [if_neg h3] at h
          rcases ih _ _ _ h with hd | hd
          · rw [dispatchedIds_append] at hd
            rcases List.mem_append.1 hd with hd | hd
            · rcases runBatches_dispatch hd with hd | hd
              · exact Or.inl hd
              · refine Or.inr ?_
                have hm : pid ∈ (posts.filter (fun q => !processed.contains q)).take limit :=
                  chunk_join_sub hd
                have hpred := List.of_mem_filter (List.mem_of_mem_take hm)
                simp only [Bool.not_eq_true'] at hpred
                intro hmem
                simp at hpred
                exact hpred hmem
            · exact absurd hd (by simp [dispatchedIds])
          · refine Or.inr fun hmem => hd ?_
            exact runBatches_mono
              (show pid ∈ (RunAcc.mk processed total trace).processed from hmem)

theorem runPages_succ_mem (success : Nat → Bool) (limit par : Nat)
    {pid : Nat} (hsucc : success pid = true) :
    ∀ (pages : List (List Nat)) (processed : List Nat) (total : Nat)
      (trace : List RunEvent),
      (pid ∈ dispatchedIds trace → pid ∈ processed) →
      pid ∈ dispatchedIds (runPages success limit par pages processed total trace).2 →
      pid ∈ (runPages success limit par pages processed total trace).1 := by
  intro pages
  induction pages with
  | nil =>
    intro processed total trace hinv h
    simp only [runPages, dispatchedIds_append] at h
    rcases List.mem_append.1 h with h | h
    · exact hinv h
    · exact absurd h (by simp [dispatchedIds])
  | cons posts rest ih =>
    intro processed total trace hinv h
    have hbase : pid ∈ dispatchedIds (trace ++ [RunEvent.save processed]) →
        pid ∈ processed := by
      intro hd
      rw [dispatchedIds_append] at hd
      rcases List.mem_append.1 hd with hd | hd
      · exact hinv hd
      · exact absurd hd (by simp [dispatchedIds])
    unfold runPages at h ⊢
    by_cases h1 : 600 ≤ total
    · rw [if_pos h1] at h ⊢; exact hbase h
    · rw [if_neg h1] at h ⊢
      by_cases h2 : posts.isEmpty
      · rw [if_pos h2] at h ⊢; exact hbase h
      · rw [if_neg h2] at h ⊢
        by_cases h3 : ((posts.filter (fun pid => !processed.contains pid)).take limit).isEmpty
        · rw [if_pos h3] at h ⊢; exact hbase h
        · rw [if_neg h3] at h ⊢
          refine ih _ _ _ ?_ h
          intro hd
          rw [dispatchedIds_append] at hd
          rcases List.mem_append.1 hd with hd | hd
          · exact runBatches_inv_succ hsucc hinv hd
          · exact absurd hd (by simp [dispatchedIds])

theorem runPages_fail_not_mem (success : Nat → Bool) (limit par : Nat)
    {pid : Nat} (hfail : success pid = false) :
    ∀ (pages : List (List Nat)) (processed : List Nat) (total : Nat)
      (trace : List RunEvent), pid ∉ processed →
      pid ∉ (runPages success limit par pages processed total trace).1 := by
  intro pages
  induction pages with
  | nil => intro processed total trace h; exact h
  | cons posts rest ih =>
    intro processed total trace h
    unfold runPages
    by_cases h1 : 600 ≤ total
    · rw [if_pos h1]; exact h
    · rw [if_neg h1]
      by_cases h2 : posts.isEmpty
      · rw [if_pos h2]; exact h
      · rw [if_neg h2]
        by_cases h3 : ((posts.filter (fun pid => !processed.contains pid)).take limit).isEmpty
        · rw [if_pos h3]; exact h
        · rw [if_neg h3]
          exact ih _ _ _ (runBatches_inv_fail hfail h)

theorem natDigitsF_eq : ∀ {n : Nat} (f1 f2 : Nat), n < f1 → n < f2 →
    natDigitsF f1 n = natDigitsF f2 n := by
  intro n
  induction n using Nat.strong_induction_on with
  | _ n ih =>
    intro f1 f2 h1 h2
    cases f1 with
    | zero => omega
    | succ g1 =>
      cases f2 with
      | zero => omega
      | succ g2 =>
        simp only [natDigitsF]
        by_cases h : n < 10
        · rw [if_pos h, if_pos h]
        · rw [if_neg h, if_neg h]
          have hd : n / 10 < n := Nat.div_lt_self (by omega) (by omega)
          rw [ih (n / 10) hd g1 g2 (by omega) (by omega)]

theorem natDigits_lt10 {n : Nat} (h : n < 10) : natDigits n = [digitChar n] := by
  simp [natDigits, natDigitsF, h]

theorem natDigits_ge10 {n : Nat} (h : 10 ≤ n) :
    natDigits n = natDigits (n / 10) ++ [digitChar (n % 10)] := by
  have hd : n / 10 < n := Nat.div_lt_self (by omega) (by omega)
  show natDigitsF (n + 1) n = _
  simp only [natDigitsF, if_neg (by omega : ¬n < 10)]
  rw [natDigitsF_eq n (n / 10 + 1) hd (Nat.lt_succ_self _)]
  rfl

theorem digitChar_isDigit {m : Nat} (h : m < 10) :
    isDigitChar (digitChar m) = true := by
  interval_cases m <;> decide

theorem digitChar_val {m : Nat} (h : m < 10) : (digitChar m).toNat - 48 = m := by
  interval_cases m <;> decide

theorem natDigits_all_digits : ∀ n, ∀ c ∈ natDigits n, isDigitChar c = true := by
  intro n
  induction n using Nat.strong_induction_on with
  | _ n ih =>
    intro c hc
    by_cases h : n < 10
    · rw [natDigits_lt10 h] at hc
      rcases List.mem_singleton.1 hc with rfl
      exact digitChar_isDigit h
    · rw [natDigits_ge10 (by omega)] at hc
      rcases List.mem_append.1 hc with hc | hc
      · exact ih (n / 10) (Nat.div_lt_self (by omega) (by omega)) c hc
      · rcases List.mem_singleton.1 hc with rfl
        exact digitChar_isDigit (Nat.mod_lt _ (by omega))

theorem natDigits_ne_nil (n : Nat) : natDigits n ≠ [] := by
  by_cases h : n < 10
  · rw [natDigits_lt10 h]; simp
  · rw [natDigits_ge10 (by omega)]; simp

theorem digitsVal_append (ds : Cs) (c : Char) :
    digitsVal (ds ++ [c]) = digitsVal ds * 10 + (c.toNat - 48) := by
  simp [digitsVal, List.foldl_append]

theorem digitsVal_natDigits : ∀ n, digitsVal (natDigits n) = n := by
  intro n
  induction n using Nat.strong_induction_on with
  | _ n ih =>
    by_cases h : n < 10
    · rw [natDigits_lt10 h]
      show (0 * 10 + ((digitChar n).toNat - 48)) = n
      rw [digitChar_val h]
      omega
    · rw [natDigits_ge10 (by omega), digitsVal_append,
        ih (n / 10) (Nat.div_lt_self (by omega) (by omega)),
        digitChar_val (Nat.mod_lt _ (by omega))]
      omega

theorem takeWhile_append_of_all (p : Char → Bool) :
    ∀ {l r : Cs}, (∀ c ∈ l, p c = true) →
      (r = [] ∨ ∃ c cs, r = c :: cs ∧ p c = false) →
      (l ++ r).takeWhile p = l ∧ (l ++ r).dropWhile p = r := by
  intro l
  induction l with
  | nil =>
    intro r _ hr
    rcases hr with rfl | ⟨c, cs, rfl, hc⟩
    · exact ⟨rfl, rfl⟩
    · simp [List.takeWhile_cons, List.dropWhile_cons, hc]
  | cons x l' ih =>
    intro r hl hr
    have hx : p x = true := hl x (by simp)
    have := ih (fun c hc => hl c (by simp [hc])) hr
    simp only [List.cons_append, List.takeWhile_cons, List.dropWhile_cons, hx]
    simp [this.1, this.2]

theorem nextOk_shape {rest : Cs} (h : nextOk rest = true) :
    rest = [] ∨ ∃ c cs, rest = c :: cs ∧ isDigitChar c = false := by
  cases rest with
  | nil => exact Or.inl rfl
  | cons c cs =>
    refine Or.inr ⟨c, cs, rfl, ?_⟩
    simpa [nextOk] using h

theorem parseNum_rt {i : Int} {rest : Cs} (hnext : nextOk rest = true) :
    parseNum (intChars i ++ rest) = some (i, rest) := by
  unfold intChars
  by_cases hi : i < 0
  · rw [if_pos hi]
    have hsplit := takeWhile_append_of_all isDigitChar
      (natDigits_all_digits (-i).toNat) (nextOk_shape hnext)
    show parseNum ('-' :: (natDigits (-i).toNat ++ rest)) = some (i, rest)
    have heq : parseNum ('-' :: (natDigits (-i).toNat ++ rest))
        = (if ((natDigits (-i).toNat ++ rest).takeWhile isDigitChar).isEmpty then none
           else some (-(digitsVal ((natDigits (-i).toNat ++ rest).takeWhile isDigitChar) : Int),
             (natDigits (-i).toNat ++ rest).dropWhile isDigitChar)) := rfl
    rw [heq, hsplit.1, hsplit.2]
    rw [if_neg (by simp [List.isEmpty_eq_true, natDigits_ne_nil])]
    rw [digitsVal_natDigits]
    rw [Int.toNat_of_nonneg (by omega : (0 : Int) ≤ -i)]
    simp
  · rw [if_neg hi]
    obtain ⟨c, t, hct⟩ := List.exists_cons_of_ne_nil (natDigits_ne_nil i.toNat)
    have hall := natDigits_all_digits i.toNat
    have hcd : isDigitChar c = true := hall c (by rw [hct]; simp)
    have hsplit := takeWhile_append_of_all isDigitChar hall (nextOk_shape hnext)
    rw [hct]
    show parseNum (c :: (t ++ rest)) = some (i, rest)
    have hcm : ¬(c = '-') := by
      intro hc
      rw [hc] at hcd
      simp [isDigitChar] at hcd
    simp only [parseNum, if_neg hcm]
    rw [show (c :: (t ++ rest)) = (c :: t) ++ rest by simp, ← hct]
    simp only [hsplit.1, hsplit.2]
    rw [if_neg (by simp [List.isEmpty_eq_true, natDigits_ne_nil])]
    rw [digitsVal_natDigits]
    rw [Int.toNat_of_nonneg (by omega : (0 : Int) ≤ i)]

theorem hexVal_hexDigit {m : Nat} (h : m < 16) : hexVal (hexDigit m) = some m := by
  interval_cases m <;> decide

theorem parseStrBody_rt :
    ∀ (s rest : Cs) (fuel : Nat), (escBody s).length < fuel →
      parseStrBody fuel (escBody s ++ ('"' :: rest)) = some (s, rest) := by
  intro s
  induction s with
  | nil =>
    intro rest fuel hf
    cases fuel with
    | zero => omega
    | succ f =>
      show parseStrBody (f + 1) ('"' :: rest) = some ([], rest)
      simp [parseStrBody]
  | cons c s' ih =>
    intro rest fuel hf
    have hesc : escBody (c :: s') = escChar c ++ escBody s' := rfl
    rw [hesc] at hf
    rw [hesc, List.append_assoc]
    by_cases h1 : c = '"'
    · subst h1
      have hlen : (escBody s').length < fuel - 1 := by
        rw [show escChar '"' = ['\\', '"'] from rfl] at hf
        simp only [List.length_append, List.length_cons] at hf
        omega
      obtain ⟨f, rfl⟩ : ∃ f, fuel = f + 1 := ⟨fuel - 1, by omega⟩
      rw [show escChar '"' = ['\\', '"'] from rfl]
      have hstep : parseStrBody (f + 1)
          ('\\' :: '"' :: (escBody s' ++ '"' :: rest))
          = (parseStrBody f (escBody s' ++ '"' :: rest)).map
              fun p => ('"' :: p.1, p.2) := rfl
      rw [show (['\\', '"'] ++ (escBody s' ++ '"' :: rest))
          = '\\' :: '"' :: (escBody s' ++ '"' :: rest) from rfl, hstep,
        ih rest f (by omega)]
      rfl
    · by_cases h2 : c = '\\'
      · subst h2
        obtain ⟨f, rfl⟩ : ∃ f, fuel = f + 1 := ⟨fuel - 1, by omega⟩
        have hlen : (escBody s').length < f := by
          rw [show escChar '\\' = ['\\', '\\'] from rfl] at hf
          simp only [List.length_append, List.length_cons] at hf
          omega
        rw [show escChar '\\' = ['\\', '\\'] from rfl]
        have hstep : parseStrBody (f + 1)
            ('\\' :: '\\' :: (escBody s' ++ '"' :: rest))
            = (parseStrBody f (escBody s' ++ '"' :: rest)).map
                fun p => ('\\' :: p.1, p.2) := rfl
        rw [show (['\\', '\\'] ++ (escBody s' ++ '"' :: rest))
            = '\\' :: '\\' :: (escBody s' ++ '"' :: rest) from rfl, hstep,
          ih rest f hlen]
        rfl
      · by_cases h3 : c = '\x08'
        · subst h3
          obtain ⟨f, rfl⟩ : ∃ f, fuel = f + 1 := ⟨fuel - 1, by omega⟩
          have hlen : (escBody s').length < f := by
            rw [show escChar '\x08' = ['\\', 'b'] from rfl] at hf
            simp only [List.length_append, List.length_cons] at hf
            omega
          rw [show escChar '\x08' = ['\\', 'b'] from rfl]
          have hstep : parseStrBody (f + 1)
              ('\\' :: 'b' :: (escBody s' ++ '"' :: rest))
              = (parseStrBody f (escBody s' ++ '"' :: rest)).map
                  fun p => ('\x08' :: p.1, p.2) := rfl
          rw [show (['\\', 'b'] ++ (escBody s' ++ '"' :: rest))
              = '\\' :: 'b' :: (escBody s' ++ '"' :: rest) from rfl, hstep,
            ih rest f hlen]
          rfl
        · by_cases h4 : c = '\t'
          · subst h4
            obtain ⟨f, rfl⟩ : ∃ f, fuel = f + 1 := ⟨fuel - 1, by omega⟩
            have hlen : (escBody s').length < f := by
              rw [show escChar '\t' = ['\\', 't'] from rfl] at hf
              simp only [List.length_append, List.length_cons] at hf
              omega
            rw [show escChar '\t' = ['\\', 't'] from rfl]
            have hstep : parseStrBody (f + 1)
                ('\\' :: 't' :: (escBody s' ++ '"' :: rest))
                = (parseStrBody f (escBody s' ++ '"' :: rest)).map
                    fun p => ('\t' :: p.1, p.2) := rfl
            rw [show (['\\', 't'] ++ (escBody s' ++ '"' :: rest))
                = '\\' :: 't' :: (escBody s' ++ '"' :: rest) from rfl, hstep,
              ih rest f hlen]
            rfl
          · by_cases h5 : c = '\n'
            · subst h5
              obtain ⟨f, rfl⟩ : ∃ f, fuel = f + 1 := ⟨fuel - 1, by omega⟩
              have hlen : (escBody s').length < f := by
                rw [show escChar '\n' = ['\\', 'n'] from rfl] at hf
                simp only [List.length_append, List.length_cons] at hf
                omega
              rw [show escChar '\n' = ['\\', 'n'] from rfl]
              have hstep : parseStrBody (f + 1)
                  ('\\' :: 'n' :: (escBody s' ++ '"' :: rest))
                  = (parseStrBody f (escBody s' ++ '"' :: rest)).map
                      fun p => ('\n' :: p.1, p.2) := rfl
              rw [show (['\\', 'n'] ++ (escBody s' ++ '"' :: rest))
                  = '\\' :: 'n' :: (escBody s' ++ '"' :: rest) from rfl, hstep,
                ih rest f hlen]
              rfl
            · by_cases h6 : c = '\x0c'
              · subst h6
                obtain ⟨f, rfl⟩ : ∃ f, fuel = f + 1 := ⟨fuel - 1, by omega⟩
                have hlen : (escBody s').length < f := by
                  rw [show escChar '\x0c' = ['\\', 'f'] from rfl] at hf
                  simp only [List.length_append, List.length_cons] at hf
                  omega
                rw [show escChar '\x0c' = ['\\', 'f'] from rfl]
                have hstep : parseStrBody (f + 1)
                    ('\\' :: 'f' :: (escBody s' ++ '"' :: rest))
                    = (parseStrBody f (escBody s' ++ '"' :: rest)).map
                        fun p => ('\x0c' :: p.1, p.2) := rfl
                rw [show (['\\', 'f'] ++ (escBody s' ++ '"' :: rest))
                    = '\\' :: 'f' :: (escBody s' ++ '"' :: rest) from rfl, hstep,
                  ih rest f hlen]
                rfl
              · by_cases h7 : c = '\r'
                · subst h7
                  obtain ⟨f, rfl⟩ : ∃ f, fuel = f + 1 := ⟨fuel - 1, by omega⟩
                  have hlen : (escBody s').length < f := by
                    rw [show escChar '\r' = ['\\', 'r'] from rfl] at hf
                    simp only [List.length_append, List.length_cons] at hf
                    omega
                  rw [show escChar '\r' = ['\\', 'r'] from rfl]
                  have hstep : parseStrBody (f + 1)
                      ('\\' :: 'r' :: (escBody s' ++ '"' :: rest))
                      = (parseStrBody f (escBody s' ++ '"' :: rest)).map
                          fun p => ('\r' :: p.1, p.2) := rfl
                  rw [show (['\\', 'r'] ++ (escBody s' ++ '"' :: rest))
                      = '\\' :: 'r' :: (escBody s' ++ '"' :: rest) from rfl, hstep,
                    ih rest f hlen]
                  rfl
                · by_cases h8 : c.toNat < 32
                  · have hchar : escChar c = ['\\', 'u', '0', '0',
                        hexDigit (c.toNat / 16), hexDigit (c.toNat % 16)] := by
                      simp only [escChar, if_neg h1, if_neg h2, if_neg h3,
                        if_neg h4, if_neg h5, if_neg h6, if_neg h7, if_pos h8]
                    obtain ⟨f, rfl⟩ : ∃ f, fuel = f + 1 := ⟨fuel - 1, by omega⟩
                    have hlen : (escBody s').length < f := by
                      rw [hchar] at hf
                      simp only [List.length_append, List.length_cons] at hf
                      omega
                    rw [hchar]
                    have hstep : parseStrBody (f + 1)
                        ('\\' :: 'u' :: '0' :: '0' :: hexDigit (c.toNat / 16)
                          :: hexDigit (c.toNat % 16) :: (escBody s' ++ '"' :: rest))
                        = (hexVal '0').bind fun a =>
                            (hexVal '0').bind fun b =>
                              (hexVal (hexDigit (c.toNat / 16))).bind fun e =>
                                (hexVal (hexDigit (c.toNat % 16))).bind fun g =>
                                  (parseStrBody f (escBody s' ++ '"' :: rest)).map
                                    fun p =>
                                      (Char.ofNat (((a * 16 + b) * 16 + e) * 16 + g)
                                        :: p.1, p.2) := rfl
                    rw [show (['\\', 'u', '0', '0', hexDigit (c.toNat / 16),
                          hexDigit (c.toNat % 16)] ++ (escBody s' ++ '"' :: rest))
                        = '\\' :: 'u' :: '0' :: '0' :: hexDigit (c.toNat / 16)
                          :: hexDigit (c.toNat % 16) :: (escBody s' ++ '"' :: rest)
                        from rfl, hstep]
                    rw [show hexVal '0' = some 0 from rfl,
                      hexVal_hexDigit (by omega : c.toNat / 16 < 16),
                      hexVal_hexDigit (Nat.mod_lt _ (by omega)),
                      ih rest f hlen]
                    show some (Char.ofNat (((0 * 16 + 0) * 16 + c.toNat / 16) * 16
                      + c.toNat % 16) :: s', rest) = some (c :: s', rest)
                    rw [show ((0 * 16 + 0) * 16 + c.toNat / 16) * 16 + c.toNat % 16
                        = c.toNat by omega]
                    rw [Char.ofNat_toNat]
                  · have hchar : escChar c = [c] := by
                      simp only [escChar, if_neg h1, if_neg h2, if_neg h3,
                        if_neg h4, if_neg h5, if_neg h6, if_neg h7, if_neg h8]
                    obtain ⟨f, rfl⟩ : ∃ f, fuel = f + 1 := ⟨fuel - 1, by omega⟩
                    have hlen : (escBody s').length < f := by
                      rw [hchar] at hf
                      simp only [List.length_append, List.length_cons] at hf
                      omega
                    rw [hchar]
                    rw [show ([c] ++ (escBody s' ++ '"' :: rest))
                        = c :: (escBody s' ++ '"' :: rest) from rfl]
                    show parseStrBody (f + 1) (c :: (escBody s' ++ '"' :: rest))
                      = some (c :: s', rest)
                    simp only [parseStrBody, if_neg h1, if_neg h2]
                    rw [ih rest f hlen]
                    rfl

theorem skipWsJ_append {w : Cs} (s : Cs) (hw : allWs w = true) :
    skipWsJ (w ++ s) = skipWsJ s := by
  show (w ++ s).dropWhile isWsChar = s.dropWhile isWsChar
  exact dropWhile_ws_append s hw

theorem skipWsJ_to {w : Cs} {c : Char} (x : Cs) (hw : allWs w = true)
    (hc : isWsChar c = false) : skipWsJ (w ++ c :: x) = c :: x := by
  rw [skipWsJ_append _ hw]
  exact dropWhile_ws_id hc

theorem skipWsJ_id {c : Char} (x : Cs) (hc : isWsChar c = false) :
    skipWsJ (c :: x) = c :: x := dropWhile_ws_id hc

theorem parseVal_ws {fuel : Nat} {w : Cs} (s : Cs) (hw : allWs w = true) :
    parseVal fuel (w ++ s) = parseVal fuel s := by
  cases fuel with
  | zero => rfl
  | succ f => simp only [parseVal, skipWsJ_append s hw]

theorem parseArrList_ws {fuel : Nat} {w : Cs} (s : Cs) (hw : allWs w = true) :
    parseArrList fuel (w ++ s) = parseArrList fuel s := by
  cases fuel with
  | zero => rfl
  | succ f => simp only [parseArrList, parseVal_ws s hw, skipWsJ_append s hw]

theorem parseObjList_ws {fuel : Nat} {w : Cs} (s : Cs) (hw : allWs w = true) :
    parseObjList fuel (w ++ s) = parseObjList fuel s := by
  cases fuel with
  | zero => rfl
  | succ f => simp only [parseObjList, skipWsJ_append s hw]

theorem allWs_jind (d : Nat) : allWs (jind d) = true := by
  simp only [allWs, jind, List.all_eq_true]
  intro c hc
  rw [List.eq_of_mem_replicate hc]
  decide

theorem allWs_nl_jind (d : Nat) : allWs ('\n' :: jind d) = true := by
  simp only [allWs, List.all_cons, Bool.and_eq_true]
  exact ⟨by decide, allWs_jind d⟩

theorem ws_not_digit {c : Char} (h : isWsChar c = true) : isDigitChar c = false := by
  simp only [isWsChar, Bool.or_eq_true, decide_eq_true_eq] at h
  rcases h with ((((h | h) | h) | h) | h) | h <;> subst h <;> decide

theorem nextOk_ws_close {w : Cs} {c : Char} (rest : Cs) (hw : allWs w = true)
    (hc : isDigitChar c = false) : nextOk (w ++ c :: rest) = true := by
  cases w with
  | nil => simp [nextOk, hc]
  | cons x xs =>
    simp only [allWs, List.all_cons, Bool.and_eq_true] at hw
    simp [nextOk, ws_not_digit hw.1]

theorem digit_not_ws {c : Char} (h : isDigitChar c = true) : isWsChar c = false := by
  cases hx : isWsChar c with
  | false => rfl
  | true => rw [ws_not_digit hx] at h; exact absurd h (by simp)

theorem intChars_head (i : Int) :
    ∃ c t, intChars i = c :: t ∧ (c = '-' ∨ isDigitChar c = true) := by
  unfold intChars
  by_cases hi : i < 0
  · rw [if_pos hi]
    exact ⟨'-', natDigits (-i).toNat, rfl, Or.inl rfl⟩
  · rw [if_neg hi]
    obtain ⟨c, t, hct⟩ := List.exists_cons_of_ne_nil (natDigits_ne_nil i.toNat)
    exact ⟨c, t, hct, Or.inr (natDigits_all_digits _ c (by rw [hct]; simp))⟩

theorem parseVal_close_none (c : Char) (hq : c ≠ '"') (hb : c ≠ '[')
    (hbr : c ≠ lbrace) (hn : c ≠ 'n') (ht : c ≠ 't') (hf : c ≠ 'f')
    (hm : c ≠ '-') (hd : isDigitChar c = false) (hw : isWsChar c = false) :
    ∀ (g : Nat) (rest : Cs), parseVal g (c :: rest) = none := by
  intro g rest
  cases g with
  | zero => rfl
  | succ g' =>
    simp only [parseVal, skipWsJ_id rest hw, if_neg hq, if_neg hb, if_neg hbr,
      if_neg hn, if_neg ht, if_neg hf]
    have : parseNum (c :: rest) = none := by
      simp only [parseNum, if_neg hm]
      rw [if_pos]
      simp [List.takeWhile_cons, hd]
    rw [this]
    rfl

theorem digit_ne_specials {c : Char} (h : isDigitChar c = true) :
    c ≠ '"' ∧ c ≠ '[' ∧ c ≠ lbrace ∧ c ≠ 'n' ∧ c ≠ 't' ∧ c ≠ 'f' := by
  refine ⟨?_, ?_, ?_, ?_, ?_, ?_⟩ <;>
    (rintro rfl; revert h; decide)

theorem jsizeV_pos (v : Json) : 1 ≤ jsizeV v := by
  cases v <;> simp [jsizeV] <;> omega

theorem parseVal_rt_num (f : Nat) (i : Int) (d : Nat) (rest : Cs)
    (hnext : nextOk rest = true) :
    parseVal (f + 1) (jstrV d (.num i) ++ rest) = some (.num i, rest) := by
  obtain ⟨c, t, hct, hcase⟩ := intChars_head i
  have hwsc : isWsChar c = false := by
    rcases hcase with rfl | hd
    · decide
    · exact digit_not_ws hd
  have hne : c ≠ '"' ∧ c ≠ '[' ∧ c ≠ lbrace ∧ c ≠ 'n' ∧ c ≠ 't' ∧ c ≠ 'f' := by
    rcases hcase with rfl | hd
    · exact ⟨by decide, by decide, by decide, by decide, by decide, by decide⟩
    · exact digit_ne_specials hd
  have hshape : jstrV d (.num i) ++ rest = c :: (t ++ rest) := by
    rw [show jstrV d (.num i) = intChars i from rfl, hct]
    simp
  rw [hshape]
  simp only [parseVal, skipWsJ_id _ hwsc, if_neg hne.1, if_neg hne.2.1,
    if_neg hne.2.2.1, if_neg hne.2.2.2.1, if_neg hne.2.2.2.2.1,
    if_neg hne.2.2.2.2.2]
  rw [show c :: (t ++ rest) = intChars i ++ rest by rw [hct]; simp]
  rw [parseNum_rt hnext]
  rfl

theorem parseVal_rt_str (f : Nat) (s : Cs) (d : Nat) (rest : Cs) :
    parseVal (f + 1) (jstrV d (.str s) ++ rest) = some (.str s, rest) := by
  have hshape : jstrV d (.str s) ++ rest = '"' :: (escBody s ++ ('"' :: rest)) := by
    show escStr s ++ rest = _
    simp [escStr]
  rw [hshape]
  have hstep : parseVal (f + 1) ('"' :: (escBody s ++ ('"' :: rest)))
      = (parseStrBody (escBody s ++ ('"' :: rest)).length
          (escBody s ++ ('"' :: rest))).map (fun p => (Json.str p.1, p.2)) := rfl
  rw [hstep, parseStrBody_rt s rest _
    (by simp only [List.length_append, List.length_cons]; omega)]
  rfl

theorem parseVal_rt_arrnil (g : Nat) (d : Nat) (rest : Cs) :
    parseVal (g + 2) (jstrV d (.arr .nil) ++ rest) = some (.arr .nil, rest) := by
  have h1 : parseVal g (']' :: rest) = none :=
    parseVal_close_none ']' (by decide) (by decide) (by decide) (by decide)
      (by decide) (by decide) (by decide) (by decide) (by decide) g rest
  have h2 : parseArrList (g + 1) (']' :: rest) = some (.nil, rest) := by
    simp only [parseArrList, h1]
    rw [skipWsJ_id rest (by decide)]
    rfl
  have hstep : parseVal (g + 1 + 1) ('[' :: (']' :: rest))
      = (parseArrList (g + 1) (']' :: rest)).map (fun p => (Json.arr p.1, p.2)) := rfl
  show parseVal (g + 1 + 1) ('[' :: (']' :: rest)) = some (.arr .nil, rest)
  rw [hstep, h2]
  rfl

theorem parseVal_rt_objnil (g : Nat) (d : Nat) (rest : Cs) :
    parseVal (g + 2) (jstrV d (.obj .nil) ++ rest) = some (.obj .nil, rest) := by
  have h2 : parseObjList (g + 1) (rbrace :: rest) = some (.nil, rest) := by
    have hsk : skipWsJ (rbrace :: rest) = rbrace :: rest :=
      skipWsJ_id rest (by decide)
    simp only [parseObjList, hsk]
    rw [if_neg (show ¬(rbrace = '"') by decide)]
    rw [if_true]
  have hstep : parseVal (g + 1 + 1) (lbrace :: (rbrace :: rest))
      = (parseObjList (g + 1) (rbrace :: rest)).map (fun p => (Json.obj p.1, p.2)) := rfl
  show parseVal (g + 1 + 1) (lbrace :: (rbrace :: rest)) = some (.obj .nil, rest)
  rw [hstep, h2]
  rfl

theorem parseVal_rt_arrcons (f : Nat) (v : Json) (tl : JArr) (d : Nat) (rest : Cs)
    (hb : parseArrList f (jstrV (d + 1) v ++ (jstrItemsRest (d + 1) tl
        ++ (('\n' :: jind d) ++ ']' :: rest))) = some (.cons v tl, rest)) :
    parseVal (f + 1) (jstrV d (.arr (.cons v tl)) ++ rest)
      = some (.arr (.cons v tl), rest) := by
  have hshape : jstrV d (.arr (.cons v tl)) ++ rest
      = '[' :: (('\n' :: jind (d + 1)) ++ (jstrV (d + 1) v
          ++ (jstrItemsRest (d + 1) tl ++ (('\n' :: jind d) ++ ']' :: rest)))) := by
    show ('[' :: '\n' :: (jstrItems (d + 1) (.cons v tl)
      ++ ('\n' :: jind d ++ [']']))) ++ rest = _
    simp [jstrItems]
  rw [hshape]
  have hstep : parseVal (f + 1) ('[' :: (('\n' :: jind (d + 1)) ++ (jstrV (d + 1) v
      ++ (jstrItemsRest (d + 1) tl ++ (('\n' :: jind d) ++ ']' :: rest)))))
      = (parseArrList f (('\n' :: jind (d + 1)) ++ (jstrV (d + 1) v
          ++ (jstrItemsRest (d + 1) tl ++ (('\n' :: jind d) ++ ']' :: rest))))).map
        (fun p => (Json.arr p.1, p.2)) := rfl
  rw [hstep, parseArrList_ws _ (allWs_nl_jind (d + 1)), hb]
  rfl

theorem parseVal_rt_objcons (f : Nat) (k : Cs) (v : Json) (tl : JObj) (d : Nat)
    (rest : Cs)
    (hc : parseObjList f (escStr k ++ (':' :: ' ' :: (jstrV (d + 1) v
        ++ (jstrFieldsRest (d + 1) tl ++ (('\n' :: jind d) ++ rbrace :: rest)))))
      = some (.cons k v tl, rest)) :
    parseVal (f + 1) (jstrV d (.obj (.cons k v tl)) ++ rest)
      = some (.obj (.cons k v tl), rest) := by
  have hshape : jstrV d (.obj (.cons k v tl)) ++ rest
      = lbrace :: (('\n' :: jind (d + 1)) ++ (escStr k ++ (':' :: ' ' :: (jstrV (d + 1) v
          ++ (jstrFieldsRest (d + 1) tl ++ (('\n' :: jind d) ++ rbrace :: rest)))))) := by
    show (lbrace :: '\n' :: (jstrFields (d + 1) (.cons k v tl)
      ++ ('\n' :: jind d ++ [rbrace]))) ++ rest = _
    simp [jstrFields]
  rw [hshape]
  have hstep : parseVal (f + 1) (lbrace :: (('\n' :: jind (d + 1)) ++ (escStr k
      ++ (':' :: ' ' :: (jstrV (d + 1) v ++ (jstrFieldsRest (d + 1) tl
        ++ (('\n' :: jind d) ++ rbrace :: rest)))))))
      = (parseObjList f (('\n' :: jind (d + 1)) ++ (escStr k
          ++ (':' :: ' ' :: (jstrV (d + 1) v ++ (jstrFieldsRest (d + 1) tl
            ++ (('\n' :: jind d) ++ rbrace :: rest))))))).map
        (fun p => (Json.obj p.1, p.2)) := rfl
  rw [hstep, parseObjList_ws _ (allWs_nl_jind (d + 1)), hc]
  rfl

/-- The parser inverts the two-space stringifier: values, array tails and
object tails, by induction on the parse fuel. -/
theorem json_rt_main : ∀ fuel : Nat,
    (∀ (v : Json) (d : Nat) (rest : Cs), jsizeV v ≤ fuel → nextOk rest = true →
      parseVal fuel (jstrV d v ++ rest) = some (v, rest)) ∧
    (∀ (v : Json) (tl : JArr) (d : Nat) (w rest : Cs),
      1 + jsizeV v + jsizeA tl ≤ fuel → allWs w = true → nextOk rest = true →
      parseArrList fuel (jstrV d v ++ (jstrItemsRest d tl ++ (w ++ ']' :: rest)))
        = some (.cons v tl, rest)) ∧
    (∀ (k : Cs) (v : Json) (tl : JObj) (d : Nat) (w rest : Cs),
      1 + jsizeV v + jsizeO tl ≤ fuel → allWs w = true → nextOk rest = true →
      parseObjList fuel (escStr k ++ (':' :: ' ' :: (jstrV d v
        ++ (jstrFieldsRest d tl ++ (w ++ rbrace :: rest)))))
        = some (.cons k v tl, rest)) := by
  intro fuel
  induction fuel with
  | zero =>
    refine ⟨?_, ?_, ?_⟩
    · intro v d rest hsz _
      have := jsizeV_pos v
      omega
    · intro v tl d w rest hsz _ _
      omega
    · intro k v tl d w rest hsz _ _
      omega
  | succ f ih =>
    obtain ⟨iha, ihb, ihc⟩ := ih
    refine ⟨?_, ?_, ?_⟩
    · intro v d rest hsz hnext
      cases v with
      | null => rfl
      | bool b => cases b <;> rfl
      | num i => exact parseVal_rt_num f i d rest hnext
      | str s => exact parseVal_rt_str f s d rest
      | arr a =>
        cases a with
        | nil =>
          obtain ⟨g, rfl⟩ : ∃ g, f = g + 1 := by
            simp only [jsizeV] at hsz
            exact ⟨f - 1, by omega⟩
          exact parseVal_rt_arrnil g d rest
        | cons v' tl =>
          apply parseVal_rt_arrcons
          apply ihb v' tl (d + 1) ('\n' :: jind d) rest ?_ (allWs_nl_jind d) hnext
          simp only [jsizeV, jsizeA] at hsz
          omega
      | obj o =>
        cases o with
        | nil =>
          obtain ⟨g, rfl⟩ : ∃ g, f = g + 1 := by
            simp only [jsizeV] at hsz
            exact ⟨f - 1, by omega⟩
          exact parseVal_rt_objnil g d rest
        | cons k v' tl =>
          apply parseVal_rt_objcons
          apply ihc k v' tl (d + 1) ('\n' :: jind d) rest ?_ (allWs_nl_jind d) hnext
          simp only [jsizeV, jsizeO] at hsz
          omega
    · intro v tl d w rest hsz hw hnext
      have hnext' : nextOk (jstrItemsRest d tl ++ (w ++ ']' :: rest)) = true := by
        cases tl with
        | nil => simpa [jstrItemsRest] using nextOk_ws_close rest hw (by decide)
        | cons v2 tl2 => rfl
      have hval := iha v d (jstrItemsRest d tl ++ (w ++ ']' :: rest)) (by omega) hnext'
      have hstep : parseArrList (f + 1) (jstrV d v
          ++ (jstrItemsRest d tl ++ (w ++ ']' :: rest)))
          = match skipWsJ (jstrItemsRest d tl ++ (w ++ ']' :: rest)) with
            | ',' :: r2 => (parseArrList f r2).map fun p => (JArr.cons v p.1, p.2)
            | ']' :: r2 => some (.cons v .nil, r2)
            | _ => none := by
        simp only [parseArrList, hval]
      rw [hstep]
      cases tl with
      | nil =>
        rw [show jstrItemsRest d .nil ++ (w ++ ']' :: rest) = w ++ ']' :: rest by
          simp [jstrItemsRest]]
        rw [skipWsJ_to rest hw (by decide)]
        rfl
      | cons v2 tl2 =>
        have hsh : jstrItemsRest d (.cons v2 tl2) ++ (w ++ ']' :: rest)
            = ',' :: ('\n' :: (jind d ++ (jstrV d v2
                ++ (jstrItemsRest d tl2 ++ (w ++ ']' :: rest))))) := by
          simp [jstrItemsRest]
        rw [hsh, skipWsJ_id _ (by decide)]
        show (parseArrList f ('\n' :: (jind d ++ (jstrV d v2
            ++ (jstrItemsRest d tl2 ++ (w ++ ']' :: rest)))))).map
          (fun p => (JArr.cons v p.1, p.2)) = _
        rw [show ('\n' :: (jind d ++ (jstrV d v2
            ++ (jstrItemsRest d tl2 ++ (w ++ ']' :: rest)))))
            = ('\n' :: jind d) ++ (jstrV d v2
                ++ (jstrItemsRest d tl2 ++ (w ++ ']' :: rest))) by simp]
        rw [parseArrList_ws _ (allWs_nl_jind d)]
        rw [ihb v2 tl2 d w rest (by simp only [jsizeA] at hsz ⊢; omega) hw hnext]
        rfl
    · intro k v tl d w rest hsz hw hnext
      have hnext' : nextOk (jstrFieldsRest d tl ++ (w ++ rbrace :: rest)) = true := by
        cases tl with
        | nil => simpa [jstrFieldsRest] using nextOk_ws_close rest hw (by decide)
        | cons k2 v2 tl2 => rfl
      have hsh0 : escStr k ++ (':' :: ' ' :: (jstrV d v
          ++ (jstrFieldsRest d tl ++ (w ++ rbrace :: rest))))
          = '"' :: (escBody k ++ ('"' :: (':' :: ' ' :: (jstrV d v
              ++ (jstrFieldsRest d tl ++ (w ++ rbrace :: rest)))))) := by
        simp [escStr]
      rw [hsh0]
      have hstep : parseObjList (f + 1) ('"' :: (escBody k ++ ('"' :: (':' :: ' '
          :: (jstrV d v ++ (jstrFieldsRest d tl ++ (w ++ rbrace :: rest)))))))
          = match parseStrBody (escBody k ++ ('"' :: (':' :: ' ' :: (jstrV d v
              ++ (jstrFieldsRest d tl ++ (w ++ rbrace :: rest)))))).length
              (escBody k ++ ('"' :: (':' :: ' ' :: (jstrV d v
                ++ (jstrFieldsRest d tl ++ (w ++ rbrace :: rest)))))) with
            | none => none
            | some (kk, r) =>
              match skipWsJ r with
              | ':' :: r2 =>
                match parseVal f r2 with
                | none => none
                | some (vv, r3) =>
                  match skipWsJ r3 with
                  | ',' :: r4 => (parseObjList f r4).map fun p =>
                      (JObj.cons kk vv p.1, p.2)
                  | c2 :: r4 => if c2 = rbrace then some (.cons kk vv .nil, r4)
                      else none
                  | [] => none
              | _ => none := rfl
      rw [hstep]
      rw [parseStrBody_rt k _ _
        (by simp only [List.length_append, List.length_cons]; omega)]
      show (match parseVal f (' ' :: (jstrV d v ++ (jstrFieldsRest d tl
          ++ (w ++ rbrace :: rest)))) with
        | none => none
        | some (vv, r3) =>
          match skipWsJ r3 with
          | ',' :: r4 => (parseObjList f r4).map fun (p : JObj × Cs) =>
              (JObj.cons k vv p.1, p.2)
          | c2 :: r4 => if c2 = rbrace then some (.cons k vv .nil, r4) else none
          | [] => none) = _
      rw [show (' ' :: (jstrV d v ++ (jstrFieldsRest d tl ++ (w ++ rbrace :: rest))))
          = [' '] ++ (jstrV d v ++ (jstrFieldsRest d tl ++ (w ++ rbrace :: rest)))
          from rfl]
      rw [parseVal_ws _ (by decide)]
      rw [iha v d (jstrFieldsRest d tl ++ (w ++ rbrace :: rest)) (by omega) hnext']
      cases tl with
      | nil =>
        rw [show jstrFieldsRest d .nil ++ (w ++ rbrace :: rest) = w ++ rbrace :: rest
          by simp [jstrFieldsRest]]
        show (match skipWsJ (w ++ rbrace :: rest) with
          | ',' :: r4 => (parseObjList f r4).map fun (p : JObj × Cs) =>
              (JObj.cons k v p.1, p.2)
          | c2 :: r4 => if c2 = rbrace then some (.cons k v .nil, r4) else none
          | [] => none) = some (JObj.cons k v .nil, rest)
        rw [show skipWsJ (w ++ rbrace :: rest) = rbrace :: rest
          from skipWsJ_to rest hw (by decide)]
        show (if rbrace = rbrace then some (JObj.cons k v .nil, rest) else none)
          = some (.cons k v .nil, rest)
        rw [if_pos rfl]
      | cons k2 v2 tl2 =>
        have hsh : jstrFieldsRest d (.cons k2 v2 tl2) ++ (w ++ rbrace :: rest)
            = ',' :: ('\n' :: (jind d ++ (escStr k2 ++ (':' :: ' ' :: jstrV d v2)
                ++ (jstrFieldsRest d tl2 ++ (w ++ rbrace :: rest))))) := by
          simp [jstrFieldsRest]
        rw [hsh]
        show (parseObjList f ('\n' :: (jind d ++ (escStr k2
            ++ (':' :: ' ' :: jstrV d v2) ++ (jstrFieldsRest d tl2
              ++ (w ++ rbrace :: rest)))))).map
          (fun (p : JObj × Cs) => (JObj.cons k v p.1, p.2)) = _
        rw [show ('\n' :: (jind d ++ (escStr k2 ++ (':' :: ' ' :: jstrV d v2)
            ++ (jstrFieldsRest d tl2 ++ (w ++ rbrace :: rest)))))
            = ('\n' :: jind d) ++ (escStr k2 ++ (':' :: ' ' :: (jstrV d v2
                ++ (jstrFieldsRest d tl2 ++ (w ++ rbrace :: rest))))) by simp]
        rw [parseObjList_ws _ (allWs_nl_jind d)]
        rw [ihc k2 v2 tl2 d w rest (by simp only [jsizeO] at hsz ⊢; omega) hw hnext]
        rfl

mutual
/-- The parse fuel a value needs is at most the length of its printout. -/
theorem jsizeV_le : ∀ (d : Nat) (v : Json), jsizeV v ≤ (jstrV d v).length
  | _, .null => by simp only [jsizeV, jstrV]; decide
  | _, .bool b => by cases b <;> (simp only [jsizeV, jstrV]; decide)
  | _, .num i => by
    obtain ⟨c, t, hct, _⟩ := intChars_head i
    simp only [jsizeV, jstrV, hct, List.length_cons]
    omega
  | _, .str s => by
    simp only [jsizeV, jstrV, escStr, List.length_cons, List.length_append]
    omega
  | _, .arr .nil => by simp only [jsizeV, jsizeA, jstrV]; decide
  | d, .arr (.cons v tl) => by
    have h1 := jsizeV_le (d + 1) v
    have h2 := jsizeA_le (d + 1) tl
    simp only [jsizeV, jsizeA, jstrV, jstrItems, List.length_cons,
      List.length_append, List.length_nil]
    omega
  | _, .obj .nil => by simp only [jsizeV, jsizeO, jstrV]; decide
  | d, .obj (.cons k v tl) => by
    have h1 := jsizeV_le (d + 1) v
    have h2 := jsizeO_le (d + 1) tl
    simp only [jsizeV, jsizeO, jstrV, jstrFields, List.length_cons,
      List.length_append, List.length_nil]
    omega

theorem jsizeA_le : ∀ (d : Nat) (a : JArr), jsizeA a ≤ (jstrItemsRest d a).length
  | _, .nil => by simp [jsizeA, jstrItemsRest]
  | d, .cons v tl => by
    have h1 := jsizeV_le d v
    have h2 := jsizeA_le d tl
    simp only [jsizeA, jstrItemsRest, List.length_cons, List.length_append]
    omega

theorem jsizeO_le : ∀ (d : Nat) (o : JObj), jsizeO o ≤ (jstrFieldsRest d o).length
  | _, .nil => by simp [jsizeO, jstrFieldsRest]
  | d, .cons k v tl => by
    have h1 := jsizeV_le d v
    have h2 := jsizeO_le d tl
    simp only [jsizeO, jstrFieldsRest, List.length_cons, List.length_append]
    omega
end

/-- `JSON.parse` inverts `JSON.stringify(v, null, 2)`. -/
theorem jsonStringify2_parseJson (v : Json) :
    parseJson (jsonStringify2 v) = some v := by
  have h := (json_rt_main (2 * (jstrV 0 v).length + 2)).1 v 0 []
    (by have := jsizeV_le 0 v; omega) rfl
  rw [List.append_nil] at h
  unfold parseJson jsonStringify2
  rw [h]
  rfl

/-- **C2.** Resumability: every id the orchestrator dispatches is outside
the `ProcessedSet` loaded at start of the run; and concretely, with
`ProcessedSet = {42}` over a source page `{42, 43, 44}`, exactly
`{43, 44}` is dispatched. -/
theorem C2_resumability (success : Nat → Bool) (limit par : Nat)
    (pages : List (List Nat)) (initial : List Nat) :
    (∀ pid, pid ∈ dispatchedIds (orchestratorRun success limit par pages initial).2 →
      pid ∉ initial) ∧
    dispatchedIds (orchestratorRun (fun _ => true) 20 3 [[42, 43, 44]] [42]).2
      = [43, 44] := by
  constructor
  · intro pid h
    rcases runPages_dispatch_fresh success limit par pages initial 0 [] h with hd | hd
    · exact absurd hd (by simp [dispatchedIds])
    · exact hd
  · rfl

/-- Witness for C2: the universal clause applied to id 43 of the concrete
run. -/
theorem C2_resumability_witness :
    (43 : Nat) ∉ ([42] : List Nat) :=
  (C2_resumability (fun _ => true) 20 3 [[42, 43, 44]] [42]).1 43 (by decide)

/-- **C3 (code bug).** `processPost` compares `articleText === newHtml`
where `newHtml` is the whole `InsertResult` object, so the comparison is
always false: the outcome is `changed := true` on every article, and (when
not in dry-run) `updatePostContent` is always called — with the result
*object* as content, not its `html` string.  No-op detection never fires,
even when the engine's output `.html` equals the input byte-for-byte. -/
theorem C3_noop_detection_code_bug (fetchBody : Nat → Cs) (llm : Cs → WidgetChoice)
    (embedOf : Cs → Cs) (postId : Nat) :
    (processPost fetchBody llm embedOf false postId).1.changed = true ∧
    (processPost fetchBody llm embedOf false postId).2
      = some (.obj (insertWidgetHtml (fetchBody postId)
          (llm (fetchBody postId)).best_widget_id
          (embedOf (llm (fetchBody postId)).best_widget_id)
          (placementText (llm (fetchBody postId)).placement_strategy)
          Placement.top)) := by
  exact ⟨rfl, rfl⟩

/-- Witness for C3: the code-bug theorem at a concrete article and oracle. -/
theorem C3_noop_detection_code_bug_witness :
    (processPost (fun _ => "<p>Hi</p>".toList)
      (fun _ => ⟨"w1".toList, Placement.top, "Go".toList⟩)
      (fun _ => "W".toList) false 1).1.changed = true ∧
    (processPost (fun _ => "<p>Hi</p>".toList)
      (fun _ => ⟨"w1".toList, Placement.top, "Go".toList⟩)
      (fun _ => "W".toList) false 1).2
      = some (.obj (insertWidgetHtml "<p>Hi</p>".toList "w1".toList "W".toList
          (placementText Placement.top) Placement.top)) :=
  C3_noop_detection_code_bug (fun _ => "<p>Hi</p>".toList)
    (fun _ => ⟨"w1".toList, Placement.top, "Go".toList⟩) (fun _ => "W".toList) 1

/-- **C4 (counterexample).** A run over one page `[1,2,3,4]` with `par = 3`
(batches `[1,2,3]` then `[4]`) where the task for id 2 fails: no
`saveState` happens between the two batch dispatches (the first two trace
events are the two batches), and the attempted id 2 is never marked
processed — both contrary to the claim. -/
theorem C4_checkpointing_counterexample :
    (orchestratorRun (fun pid => pid != 2) 20 3 [[1, 2, 3, 4]] []).2
      = [RunEvent.batch [1, 2, 3], RunEvent.batch [4],
         RunEvent.save [1, 3, 4], RunEvent.save [1, 3, 4]] ∧
    2 ∈ dispatchedIds (orchestratorRun (fun pid => pid != 2) 20 3 [[1, 2, 3, 4]] []).2 ∧
    2 ∉ (orchestratorRun (fun pid => pid != 2) 20 3 [[1, 2, 3, 4]] []).1 := by
  refine ⟨rfl, by decide, by decide⟩

/-- **C4 (amended).** After each batch, only identifiers whose task
succeeded are added to the in-memory `ProcessedSet` (a handled failure is
withheld); the set is persisted once after each fetched page's batches and
once more at run end — not between batches of the same page — so the final
`saveState` records exactly the final set. -/
theorem C4_checkpointing_amended (success : Nat → Bool) (limit par : Nat)
    (pages : List (List Nat)) (initial : List Nat) :
    (∀ pid, pid ∈ dispatchedIds (orchestratorRun success limit par pages initial).2 →
      success pid = true → pid ∈ (orchestratorRun success limit par pages initial).1) ∧
    (∀ pid, pid ∉ initial → success pid = false →
      pid ∉ (orchestratorRun success limit par pages initial).1) ∧
    (∃ t, (orchestratorRun success limit par pages initial).2
      = t ++ [RunEvent.save (orchestratorRun success limit par pages initial).1]) := by
  refine ⟨?_, ?_, ?_⟩
  · intro pid h hs
    exact runPages_succ_mem success limit par hs pages initial 0 []
      (fun hd => absurd hd (by simp [dispatchedIds])) h
  · intro pid h hs
    exact runPages_fail_not_mem success limit par hs pages initial 0 [] h
  · exact runPages_final_save success limit par pages initial 0 []

/-- Witness for C4: the amended statement at the concrete failing-batch
run, applied to the successful id 1. -/
theorem C4_checkpointing_amended_witness :
    (1 ∈ (orchestratorRun (fun pid => pid != 2) 20 3 [[1, 2, 3, 4]] []).1) ∧
    (2 ∉ (orchestratorRun (fun pid => pid != 2) 20 3 [[1, 2, 3, 4]] []).1) ∧
    (∃ t, (orchestratorRun (fun pid => pid != 2) 20 3 [[1, 2, 3, 4]] []).2
      = t ++ [RunEvent.save (orchestratorRun (fun pid => pid != 2) 20 3
          [[1, 2, 3, 4]] []).1]) :=
  ⟨(C4_checkpointing_amended (fun pid => pid != 2) 20 3 [[1, 2, 3, 4]] []).1
      1 (by decide) (by decide),
   (C4_checkpointing_amended (fun pid => pid != 2) 20 3 [[1, 2, 3, 4]] []).2.1
      2 (by decide) (by decide),
   (C4_checkpointing_amended (fun pid => pid != 2) 20 3 [[1, 2, 3, 4]] []).2.2⟩

/-- **C5.** Failure isolation: if some task in a dispatched batch fails,
every sibling in that batch whose task succeeded is still added to the
processed set, and the run's final `saveState` records that set;
concretely, a run over pages `[[42,43,44],[45]]` where the task for 43
throws still dispatches all four ids and checkpoints `{42,44,45}`. -/
theorem C5_failure_isolation (success : Nat → Bool) (limit par : Nat)
    (pages : List (List Nat)) (initial : List Nat) (b : List Nat) (pid fid : Nat)
    (hb : RunEvent.batch b ∈ (orchestratorRun success limit par pages initial).2)
    (hfid : fid ∈ b) (hfail : success fid = false)
    (hpid : pid ∈ b) (hsucc : success pid = true) :
    (pid ∈ (orchestratorRun success limit par pages initial).1 ∧
      ∃ t, (orchestratorRun success limit par pages initial).2
        = t ++ [RunEvent.save (orchestratorRun success limit par pages initial).1]) ∧
    (dispatchedIds (orchestratorRun (fun x => x != 43) 20 3 [[42, 43, 44], [45]] []).2
        = [42, 43, 44, 45] ∧
      (orchestratorRun (fun x => x != 43) 20 3 [[42, 43, 44], [45]] []).1
        = [42, 44, 45]) := by
  refine ⟨⟨?_, runPages_final_save success limit par pages initial 0 []⟩, rfl, rfl⟩
  exact runPages_succ_mem success limit par hsucc pages initial 0 []
    (fun hd => absurd hd (by simp [dispatchedIds]))
    (mem_dispatched_of_batch hpid hb)

/-- Witness for C5: the isolation statement at the concrete two-page run
with the failing task for id 43 and its successful sibling 42. -/
theorem C5_failure_isolation_witness :
    (42 ∈ (orchestratorRun (fun x => x != 43) 20 3 [[42, 43, 44], [45]] []).1 ∧
      ∃ t, (orchestratorRun (fun x => x != 43) 20 3 [[42, 43, 44], [45]] []).2
        = t ++ [RunEvent.save (orchestratorRun (fun x => x != 43) 20 3
            [[42, 43, 44], [45]] []).1]) ∧
    (dispatchedIds (orchestratorRun (fun x => x != 43) 20 3 [[42, 43, 44], [45]] []).2
        = [42, 43, 44, 45] ∧
      (orchestratorRun (fun x => x != 43) 20 3 [[42, 43, 44], [45]] []).1
        = [42, 44, 45]) :=
  (C5_failure_isolation (fun x => x != 43) 20 3 [[42, 43, 44], [45]] []
    [42, 43, 44] 42 43 (by decide) (by decide) (by decide) (by decide) (by decide)).imp
    id id

/-- Witness for C1: the freeze conjunct at a two-signature document, and
the trace-back conjunct at the three-signature document after one gated
run. -/
theorem C1_at_most_cap_amended_witness :
    gatedInsertStep "w1".toList "W".toList "Go".toList Placement.top
      (widgetSig ++ widgetSig) = widgetSig ++ widgetSig ∧
    (2 < countWidgets (widgetSig ++ widgetSig ++ widgetSig) ∨
      ∃ k, countWidgets (gatedInsertIter "w1".toList "W".toList "Go".toList
          Placement.top k (widgetSig ++ widgetSig ++ widgetSig)) ≤ 1 ∧
        2 < countWidgets (gatedInsertIter "w1".toList "W".toList "Go".toList
          Placement.top (k + 1) (widgetSig ++ widgetSig ++ widgetSig))) :=
  ⟨(C1_at_most_cap_amended "w1".toList "W".toList "Go".toList Placement.top
      [] 0).1 (widgetSig ++ widgetSig) (by decide),
    (C1_at_most_cap_amended "w1".toList "W".toList "Go".toList Placement.top
      (widgetSig ++ widgetSig ++ widgetSig) 1).2 (by decide)⟩

/-- **C10.** State-store round-trip: for every state value `s`, writing it
with `saveState` and reading the resulting file back with `loadState`
recovers `s` exactly, so the saved processed set is recovered on the next
run's load. -/
theorem C10_state_store_roundtrip (s : Json) :
    loadState (saveState s) = s := by
  show (match parseJson (jsonStringify2 s) with
    | some v => v
    | none => Json.obj .nil) = s
  rw [jsonStringify2_parseJson s]

/-- Witness for C10: the round-trip at a concrete state object holding a
processed list. -/
theorem C10_state_store_roundtrip_witness :
    loadState (saveState (Json.obj (.cons "processed".toList
      (Json.arr (.cons (.num 42) (.cons (.num 43) .nil))) .nil)))
      = Json.obj (.cons "processed".toList
        (Json.arr (.cons (.num 42) (.cons (.num 43) .nil))) .nil) :=
  C10_state_store_roundtrip (Json.obj (.cons "processed".toList
    (Json.arr (.cons (.num 42) (.cons (.num 43) .nil))) .nil))
